import Mathlib

/-!
Shallow embedding of `src/facsimile.js`, a deep-duplication library for
JavaScript runtime values.  The library exports a single dispatcher
`duplicate` that classifies its argument by runtime type tag (via the
external `tupos` collaborator `typeOf`) and applies the per-type strategy
registered in the dispatch table `_duplicate`.

Modelling conventions:
* JavaScript values are the inductive type `Value`.  Reference identity is
  modelled by an explicit address (`Nat`) carried by every heap-allocated
  value (objects, arrays, functions, errors, dates, ...).  Scalars carry no
  address; symbols carry an identity number.
* Allocation is modelled by threading a counter `c : Nat` through the
  duplication: a freshly allocated value receives the current counter as
  its address and the counter is bumped.  Callers are expected to start the
  counter above every address occurring in the input, so "fresh address"
  means "distinct identity".
* A plain object's for-in enumeration sees its own enumerable keys in
  enumeration order followed by the inherited enumerable keys of its
  prototype chain that are not shadowed.  We model an object as its own
  property list plus a flattened prototype property list, both kept in
  enumeration order; `forInItems` produces the for-in view (first binding
  per key wins, matching property lookup).
* Fallible operations return `Except JsError`; the dispatcher's missing-key
  failure is `JsError.unsupportedType`, and failures raised by the host
  constructors used by strategies (e.g. `new WeakMap(wm)` throwing because
  a WeakMap is not iterable) are `JsError.hostTypeError`.
* Numbers are modelled as `Int`: no claim depends on fractional or IEEE
  behaviour, only on numbers being scalars copied by the identity strategy.
-/

namespace Facsimile

/-- The nine fixed-width numeric array (typed array) element kinds of the
dispatch table (source lines 184-192). -/
inductive TAKind where
  | int8 | uint8 | uint8Clamped | int16 | uint16 | int32 | uint32
  | float32 | float64
  deriving DecidableEq

/-- The three callable kinds that the table routes to `duplicateFunction`
(source lines 172, 197, 199). -/
inductive FKind where
  | plain | generatorFn | asyncFn
  deriving DecidableEq

/-- Runtime type tags, as produced by the external classifier `typeOf` of
the `tupos` package.  `other s` stands for any classification that is not a
key of the dispatch table (e.g. an Arguments object). -/
inductive TypeTag where
  | string | number | boolean | null | undefined | symbol
  | function | error | regexp | date | object | array
  | map | weakmap | set | weakset | math | promise
  | typedArray (k : TAKind)
  | arraybuffer | dataview | json | generator | generatorfunc
  | wasm | asyncfunc
  | other (s : String)
  deriving DecidableEq

/-- JavaScript runtime values, with explicit identity addresses on every
heap-allocated shape. -/
inductive Value where
  | vstr (s : String)
  | vnum (n : Int)
  | vbool (b : Bool)
  | vnull
  | vundefined
  | vsymbol (id : Nat)
  | vfunction (addr : Nat) (fkind : FKind) (src : String)
  | verror (addr : Nat) (name message : String)
      (extra : List (String × Value)) (stack : String)
  | vregexp (addr : Nat) (src flags : String)
  | vdate (addr : Nat) (epoch : Int)
  | vobject (addr : Nat) (own proto : List (String × Value))
  | varray (addr : Nat) (cells : List (Option Value))
      (extra : List (String × Value))
  | vmap (addr : Nat) (entries : List (Value × Value))
  | vweakmap (addr : Nat) (entries : List (Value × Value))
  | vset (addr : Nat) (elems : List Value)
  | vweakset (addr : Nat) (elems : List Value)
  | vmath
  | vjson
  | vpromise (addr : Nat) (outcome : Nat)
  | vtypedArray (addr : Nat) (kind : TAKind) (elems : List Int)
      (extra : List (String × Value))
  | varrayBuffer (addr : Nat) (byteLength : Nat)
  | vdataView (addr : Nat) (bufferAddr byteOffset byteLength : Nat)
  | vgenerator (addr : Nat)
  | vwasm (addr : Nat)
  | vother (tag : String) (addr : Nat)

open Value

/-- The single failure taxonomy: the dispatcher's missing-key failure
(raised when the type tag has no entry in the table), and failures thrown
by host constructors inside a strategy, which propagate uncaught. -/
inductive JsError where
  | unsupportedType (t : TypeTag)
  | hostTypeError (msg : String)

/-- The external classifier `typeOf` (from `tupos`): maps every value to
its runtime type tag.  It is assumed to classify correctly, so it is the
evident projection from a value's shape to its tag. -/
def typeOf : Value → TypeTag
  | vstr _ => .string
  | vnum _ => .number
  | vbool _ => .boolean
  | vnull => .null
  | vundefined => .undefined
  | vsymbol _ => .symbol
  | vfunction _ .plain _ => .function
  | vfunction _ .generatorFn _ => .generatorfunc
  | vfunction _ .asyncFn _ => .asyncfunc
  | verror _ _ _ _ _ => .error
  | vregexp _ _ _ => .regexp
  | vdate _ _ => .date
  | vobject _ _ _ => .object
  | varray _ _ _ => .array
  | vmap _ _ => .map
  | vweakmap _ _ => .weakmap
  | vset _ _ => .set
  | vweakset _ _ => .weakset
  | vmath => .math
  | vjson => .json
  | vpromise _ _ => .promise
  | vtypedArray _ k _ _ => .typedArray k
  | varrayBuffer _ _ => .arraybuffer
  | vdataView _ _ _ _ => .dataview
  | vgenerator _ => .generator
  | vwasm _ => .wasm
  | vother t _ => .other t

/-- Names of the strategies stored in the dispatch table.  `mapTypeS true`
is `duplicateMapType(WeakMap)`, `mapTypeS false` is
`duplicateMapType(Map)`, and likewise for the set family. -/
inductive Strat where
  | identityS
  | functionS
  | errorS
  | regexpS
  | dateS
  | objectS
  | arrayS
  | mapTypeS (weak : Bool)
  | setTypeS (weak : Bool)
  | promiseS
  | typedArrayS (k : TAKind)
  | arrayBufferS
  | dataViewS
  deriving DecidableEq

/-- The dispatch table `_duplicate` (source lines 165-200), keyed by type
tag.  Tags outside the listed keys (modelled by `TypeTag.other`) have no
entry. -/
def _duplicate : TypeTag → Option Strat
  | .string => some .identityS
  | .number => some .identityS
  | .boolean => some .identityS
  | .null => some .identityS
  | .undefined => some .identityS
  | .symbol => some .identityS
  | .function => some .functionS
  | .error => some .errorS
  | .regexp => some .regexpS
  | .date => some .dateS
  | .object => some .objectS
  | .array => some .arrayS
  | .map => some (.mapTypeS false)
  | .weakmap => some (.mapTypeS true)
  | .set => some (.setTypeS false)
  | .weakset => some (.setTypeS true)
  | .math => some .identityS
  | .promise => some .promiseS
  | .typedArray k => some (.typedArrayS k)
  | .arraybuffer => some .arrayBufferS
  | .dataview => some .dataViewS
  | .json => some .identityS
  | .generator => some .identityS
  | .generatorfunc => some .functionS
  | .wasm => some .identityS
  | .asyncfunc => some .functionS
  | .other _ => none

/-- Source line 17: `const identity = item => item`. -/
def identity (item : Value) : Value := item

/-- Source line 25: `Function("return " + func)()` re-synthesizes a
callable from its source text in a fresh evaluation context: a new object
identity with the same source text (captured lexical state is lost; we do
not model closures since no observable claim depends on them). -/
def duplicateFunction (fkind : FKind) (src : String) (c : Nat) :
    Value × Nat :=
  (vfunction c fkind src, c + 1)

/-- Source lines 33-37: `new Error(err.message)` followed by
`newErr.name = err.name`.  Only `message` and `name` are carried over;
custom enumerable fields are not copied and the stack of the new error is
a fresh capture (modelled by the empty string). -/
def duplicateError (name message : String) (c : Nat) : Value × Nat :=
  (verror c name message [] "", c + 1)

/-- Source line 45: `new RegExp(regex.source, regex.flags)`. -/
def duplicateRegExp (src flags : String) (c : Nat) : Value × Nat :=
  (vregexp c src flags, c + 1)

/-- Source line 53: `new Date(dt)`: a fresh date carrying the same
instant. -/
def duplicateDate (epoch : Int) (c : Nat) : Value × Nat :=
  (vdate c epoch, c + 1)

/-- Source line 101: `duplicateMapType = constructor => map =>
new constructor(map)`.  With the `Map` constructor this shallow-copies the
entry list into a fresh container.  With the `WeakMap` constructor the
host constructor throws a TypeError, because `new WeakMap(iterable)`
requires an iterable argument and a WeakMap is not iterable. -/
def duplicateMapType (weak : Bool) (entries : List (Value × Value))
    (c : Nat) : Except JsError (Value × Nat) :=
  if weak then .error (.hostTypeError "weakmap is not iterable")
  else .ok (vmap c entries, c + 1)

/-- Source line 112: `duplicateSetType = constructor => set =>
new constructor(set)`; same host behaviour as `duplicateMapType`. -/
def duplicateSetType (weak : Bool) (elems : List Value) (c : Nat) :
    Except JsError (Value × Nat) :=
  if weak then .error (.hostTypeError "weakset is not iterable")
  else .ok (vset c elems, c + 1)

/-- Source line 124: `promise.then()` yields a distinct promise handle
that settles with the same outcome. -/
def duplicatePromise (outcome : Nat) (c : Nat) : Value × Nat :=
  (vpromise c outcome, c + 1)

/-- Source line 152: `new ArrayBuffer(arrBuff.length)`.  An ArrayBuffer
has no `length` property (it is sized by `byteLength`), so the constructor
receives `undefined`, and `ToIndex(undefined)` is `0`: the copy is always
a zero-length buffer regardless of the source's byte length. -/
def duplicateArrayBuffer (_byteLength : Nat) (c : Nat) : Value × Nat :=
  (varrayBuffer c 0, c + 1)

/-- Source lines 160-161: `new DataView(dv.buffer, dv.byteOffset,
dv.byteLength)`: a fresh view aliasing the same underlying buffer. -/
def duplicateDataView (bufferAddr byteOffset byteLength : Nat) (c : Nat) :
    Value × Nat :=
  (vdataView c bufferAddr byteOffset byteLength, c + 1)

/-- The for-in enumeration view of a property list: keeps the first
binding of every key, in order of first occurrence.  `seen` holds the keys
already enumerated. -/
def firstPerKey : List String → List (String × Value) →
    List (String × Value)
  | _, [] => []
  | seen, (k, v) :: rest =>
    if k ∈ seen then firstPerKey seen rest
    else (k, v) :: firstPerKey (k :: seen) rest

/-- For-in enumeration of a plain object: own enumerable keys in
enumeration order, then inherited enumerable keys not shadowed by an own
key; each key paired with the value property lookup finds (the first
binding). -/
def forInItems (own proto : List (String × Value)) :
    List (String × Value) :=
  firstPerKey [] (own ++ proto)

/-- Assigning only the enumerated indices into a fresh `[]` leaves the new
array's length at one past the last assigned index: trailing holes of the
source are not reproduced.  `trimTrailing` drops trailing holes. -/
def trimTrailing : List (Option Value) → List (Option Value)
  | [] => []
  | some v :: rest => some v :: trimTrailing rest
  | none :: rest =>
    match trimTrailing rest with
    | [] => []
    | y :: r => none :: y :: r

theorem sizeOf_list_append {α : Type} [SizeOf α] (l₁ l₂ : List α) :
    sizeOf (l₁ ++ l₂) + 1 = sizeOf l₁ + sizeOf l₂ := by
  induction l₁ with
  | nil => simp; omega
  | cons a l ih => simp [ih]; omega

theorem one_le_sizeOf_list {α : Type} [SizeOf α] (l : List α) :
    1 ≤ sizeOf l := by
  cases l with
  | nil => simp
  | cons a l => simp; omega

theorem firstPerKey_sizeOf_le (seen : List String)
    (l : List (String × Value)) :
    sizeOf (firstPerKey seen l) ≤ sizeOf l := by
  induction l generalizing seen with
  | nil => simp [firstPerKey]
  | cons p rest ih =>
    obtain ⟨k, v⟩ := p
    simp only [firstPerKey]
    split
    · have := ih seen
      simp only [List.cons.sizeOf_spec]
      omega
    · have := ih (k :: seen)
      simp only [List.cons.sizeOf_spec]
      omega

mutual

/-- The dispatcher `duplicate` (source line 163):
`elem => _duplicate[typeOf(elem)](elem)`.  A tag that is not a key of the
table makes the lookup yield `undefined` and the call fail (modelled as
`unsupportedType`).  The per-shape arms apply the registered strategy; the
final arm is unreachable through tag dispatch (the classifier ties each
tag to its shape) and is fixed arbitrarily to a host failure. -/
def duplicate (v : Value) (c : Nat) : Except JsError (Value × Nat) :=
  match _duplicate (typeOf v), v with
  | none, _ => .error (.unsupportedType (typeOf v))
  | some .identityS, _ => .ok (identity v, c)
  | some .functionS, vfunction _ k src => .ok (duplicateFunction k src c)
  | some .errorS, verror _ nm msg _ _ => .ok (duplicateError nm msg c)
  | some .regexpS, vregexp _ src fl => .ok (duplicateRegExp src fl c)
  | some .dateS, vdate _ e => .ok (duplicateDate e c)
  | some .objectS, vobject _ own proto => duplicateObject own proto c
  | some .arrayS, varray _ cells extra => duplicateArray cells extra c
  | some (.mapTypeS false), vmap _ entries =>
      duplicateMapType false entries c
  | some (.mapTypeS true), vweakmap _ entries =>
      duplicateMapType true entries c
  | some (.setTypeS false), vset _ elems => duplicateSetType false elems c
  | some (.setTypeS true), vweakset _ elems =>
      duplicateSetType true elems c
  | some .promiseS, vpromise _ oid => .ok (duplicatePromise oid c)
  | some (.typedArrayS _), vtypedArray _ k elems extra =>
      duplicateTypedArray k elems extra c
  | some .arrayBufferS, varrayBuffer _ len =>
      .ok (duplicateArrayBuffer len c)
  | some .dataViewS, vdataView _ b o l => .ok (duplicateDataView b o l c)
  | some _, _ =>
      .error (.hostTypeError "strategy applied to unexpected shape")
termination_by sizeOf v
decreasing_by
  all_goals simp_wf
  have h1 := one_le_sizeOf_list elems
  cases k <;> simp <;> omega

/-- Source lines 64-72: `const retObj = {}; for (const key in obj)
retObj[key] = _duplicate[typeOf(obj[key])](obj[key]); return retObj`.
The fresh container is allocated first (address `c`), then every for-in
binding is duplicated through the dispatcher and assigned as an own
property of the copy; the copy has the default prototype. -/
def duplicateObject (own proto : List (String × Value)) (c : Nat) :
    Except JsError (Value × Nat) :=
  match dupPairs (forInItems own proto) (c + 1) with
  | .error e => .error e
  | .ok (ps, c') => .ok (vobject c ps [], c')
termination_by sizeOf own + sizeOf proto
decreasing_by
  simp_wf
  have h1 := firstPerKey_sizeOf_le [] (own ++ proto)
  have h2 := sizeOf_list_append own proto
  simp only [forInItems]
  omega

/-- Source lines 83-90: `const retArr = []; for (const key in arr)
retArr[key] = _duplicate[typeOf(arr[key])](arr[key]); return retArr`.
For-in enumerates the present indices in ascending order (holes are
skipped) and then the extra own enumerable keys; index assignment into the
fresh `[]` leaves trailing holes of the source unreproduced
(`trimTrailing`). -/
def duplicateArray (cells : List (Option Value))
    (extra : List (String × Value)) (c : Nat) :
    Except JsError (Value × Nat) :=
  match dupCells cells (c + 1) with
  | .error e => .error e
  | .ok (cells', c') =>
    match dupPairs (firstPerKey [] extra) c' with
    | .error e => .error e
    | .ok (extra', c'') => .ok (varray c (trimTrailing cells') extra', c'')
termination_by sizeOf cells + sizeOf extra
decreasing_by
  · simp_wf
    have h1 := one_le_sizeOf_list extra
    omega
  · simp_wf
    have h1 := firstPerKey_sizeOf_le [] extra
    have h2 := one_le_sizeOf_list cells
    omega

/-- Source lines 135-144: `new constructor(typedArr.length)` then for-in
assignment of every enumerated key through the dispatcher.  The indexed
elements are numbers, and the dispatcher's NUMBER strategy is the
identity, so the index writes store the same numeric values; the extra own
enumerable properties are duplicated through the dispatcher. -/
def duplicateTypedArray (kind : TAKind) (elems : List Int)
    (extra : List (String × Value)) (c : Nat) :
    Except JsError (Value × Nat) :=
  match dupPairs (firstPerKey [] extra) (c + 1) with
  | .error e => .error e
  | .ok (extra', c') => .ok (vtypedArray c kind elems extra', c')
termination_by sizeOf extra + 1
decreasing_by
  simp_wf
  have h1 := firstPerKey_sizeOf_le [] extra
  omega

/-- Duplicates the values of a property list in order through the
dispatcher, threading the allocation counter; the first failure aborts. -/
def dupPairs : List (String × Value) → Nat →
    Except JsError (List (String × Value) × Nat)
  | [], c => .ok ([], c)
  | (k, v) :: rest, c =>
    match duplicate v c with
    | .error e => .error e
    | .ok (v', c') =>
      match dupPairs rest c' with
      | .error e => .error e
      | .ok (rest', c'') => .ok ((k, v') :: rest', c'')
termination_by l _ => sizeOf l
decreasing_by
  all_goals simp_wf
  all_goals omega

/-- Duplicates the present cells of an array in index order through the
dispatcher; holes are skipped by for-in and stay holes. -/
def dupCells : List (Option Value) → Nat →
    Except JsError (List (Option Value) × Nat)
  | [], c => .ok ([], c)
  | none :: rest, c =>
    match dupCells rest c with
    | .error e => .error e
    | .ok (rest', c') => .ok (none :: rest', c')
  | some v :: rest, c =>
    match duplicate v c with
    | .error e => .error e
    | .ok (v', c') =>
      match dupCells rest c' with
      | .error e => .error e
      | .ok (rest', c'') => .ok (some v' :: rest', c'')
termination_by l _ => sizeOf l
decreasing_by
  all_goals simp_wf
  all_goals omega

end

mutual

/-- Structural normalization underlying deep equality: erases identity
addresses, collapses an object's prototype bindings into the for-in view
(deep equality observes the enumerable bindings a property read sees), and
erases the call-stack capture of errors.  Opaque handles (symbols,
generators, WASM modules, unclassifiable values) and the aliased buffer of
a data view keep their identity, since no structural content is visible
for them. -/
def normalize : Value → Value
  | vstr s => vstr s
  | vnum n => vnum n
  | vbool b => vbool b
  | vnull => vnull
  | vundefined => vundefined
  | vsymbol i => vsymbol i
  | vfunction _ k src => vfunction 0 k src
  | verror _ nm msg extra _ =>
      verror 0 nm msg (normPairs (firstPerKey [] extra)) ""
  | vregexp _ s f => vregexp 0 s f
  | vdate _ e => vdate 0 e
  | vobject _ own proto => vobject 0 (normPairs (forInItems own proto)) []
  | varray _ cells extra =>
      varray 0 (normCells cells) (normPairs (firstPerKey [] extra))
  | vmap _ entries => vmap 0 (normEntries entries)
  | vweakmap _ entries => vweakmap 0 (normEntries entries)
  | vset _ elems => vset 0 (normVals elems)
  | vweakset _ elems => vweakset 0 (normVals elems)
  | vmath => vmath
  | vjson => vjson
  | vpromise _ oid => vpromise 0 oid
  | vtypedArray _ k elems extra =>
      vtypedArray 0 k elems (normPairs (firstPerKey [] extra))
  | varrayBuffer _ len => varrayBuffer 0 len
  | vdataView _ b o l => vdataView 0 b o l
  | vgenerator a => vgenerator a
  | vwasm a => vwasm a
  | vother t a => vother t a
termination_by v => sizeOf v
decreasing_by
  all_goals simp_wf
  · have h1 := firstPerKey_sizeOf_le [] extra
    omega
  · have h1 := firstPerKey_sizeOf_le [] (own ++ proto)
    have h2 := sizeOf_list_append own proto
    simp only [forInItems]
    omega
  all_goals try omega
  · have h1 := firstPerKey_sizeOf_le [] extra
    have h2 := one_le_sizeOf_list cells
    omega
  · have h1 := firstPerKey_sizeOf_le [] extra
    have h2 := one_le_sizeOf_list elems
    cases k <;> simp <;> omega

/-- Normalizes the values of a property list. -/
def normPairs : List (String × Value) → List (String × Value)
  | [] => []
  | (k, v) :: rest => (k, normalize v) :: normPairs rest
termination_by l => sizeOf l
decreasing_by all_goals simp_wf <;> omega

/-- Normalizes the present cells of an array. -/
def normCells : List (Option Value) → List (Option Value)
  | [] => []
  | none :: rest => none :: normCells rest
  | some v :: rest => some (normalize v) :: normCells rest
termination_by l => sizeOf l
decreasing_by all_goals simp_wf <;> omega

/-- Normalizes each key and value of a map entry list. -/
def normEntries : List (Value × Value) → List (Value × Value)
  | [] => []
  | (k, v) :: rest => (normalize k, normalize v) :: normEntries rest
termination_by l => sizeOf l
decreasing_by all_goals simp_wf <;> omega

/-- Normalizes each element of a set element list. -/
def normVals : List Value → List Value
  | [] => []
  | v :: rest => normalize v :: normVals rest
termination_by l => sizeOf l
decreasing_by all_goals simp_wf <;> omega

end

/-- Last entry of an array's cell list is not a hole (trailing holes of a
source array are the one part of its shape a for-in copy cannot
reproduce). -/
def noTrailingHole : List (Option Value) → Bool
  | [] => true
  | [none] => false
  | [some _] => true
  | _ :: y :: rest => noTrailingHole (y :: rest)

mutual

/-- Invariant of every value produced by the dispatcher: prototype
bindings collapsed into own properties, errors stripped to name/message
with a fresh stack, zero-length buffer copies, no trailing holes in
arrays, and no weak collection or unclassifiable value in a position the
object/array recursion would dispatch on.  Map and set entries are
shallow-copied without dispatch, so they are unconstrained. -/
def canonV : Value → Bool
  | vobject _ own proto => proto.isEmpty && canonPairs own
  | varray _ cells extra =>
      noTrailingHole cells && canonCells cells && canonPairs extra
  | verror _ _ _ extra stack => extra.isEmpty && stack == ""
  | varrayBuffer _ len => len == 0
  | vtypedArray _ _ _ extra => canonPairs extra
  | vweakmap _ _ => false
  | vweakset _ _ => false
  | vother _ _ => false
  | _ => true
termination_by v => sizeOf v
decreasing_by all_goals simp_wf <;> omega

/-- `canonV` on every value of a property list. -/
def canonPairs : List (String × Value) → Bool
  | [] => true
  | (_, v) :: rest => canonV v && canonPairs rest
termination_by l => sizeOf l
decreasing_by all_goals simp_wf <;> omega

/-- `canonV` on every present cell. -/
def canonCells : List (Option Value) → Bool
  | [] => true
  | none :: rest => canonCells rest
  | some v :: rest => canonV v && canonCells rest
termination_by l => sizeOf l
decreasing_by all_goals simp_wf <;> omega

end

/-- Deep equality of runtime values: structural equality of the
identity-erased normal forms.  Matches the observable notion used by the
library's documentation: same enumerable bindings with deep-equal values,
same represented content for dates/regexps/buffers, identity ignored on
every freshly allocatable shape. -/
def deepEqual (x y : Value) : Prop := normalize x = normalize y

/-- A value duplicates to `w` (at some allocation counter). -/
def Dup (v w : Value) : Prop :=
  ∃ c c', duplicate v c = .ok (w, c')

/-- Duplication of `v` is faithful up to identity: every successful
duplication of `v` has the same normal form as `v`. -/
def NormPres (v : Value) : Prop :=
  ∀ c y c', duplicate v c = .ok (y, c') → normalize y = normalize v

/-- The identity address of a heap-allocated value, if it has one. -/
def topAddr : Value → Option Nat
  | vfunction a _ _ => some a
  | verror a _ _ _ _ => some a
  | vregexp a _ _ => some a
  | vdate a _ => some a
  | vobject a _ _ => some a
  | varray a _ _ => some a
  | vmap a _ => some a
  | vweakmap a _ => some a
  | vset a _ => some a
  | vweakset a _ => some a
  | vpromise a _ => some a
  | vtypedArray a _ _ _ => some a
  | varrayBuffer a _ => some a
  | vdataView a _ _ _ => some a
  | vgenerator a => some a
  | vwasm a => some a
  | vother _ a => some a
  | _ => none

/-- Scalar shapes: exactly the six categories the specification calls
scalars (string, number, boolean, null, undefined, symbol). -/
def isScalar : Value → Bool
  | vstr _ | vnum _ | vbool _ | vnull | vundefined | vsymbol _ => true
  | _ => false

/-- Plain-object shape test. -/
def isObjectV : Value → Bool
  | vobject _ _ _ => true
  | _ => false

/-- Array shape test. -/
def isArrayV : Value → Bool
  | varray _ _ _ => true
  | _ => false

/-- Callable shape test (plain, generator and async functions). -/
def isFunctionV : Value → Bool
  | vfunction _ _ _ => true
  | _ => false

/-- Deferred-value (promise) shape test. -/
def isPromiseV : Value → Bool
  | vpromise _ _ => true
  | _ => false

theorem sizeOf_lt_of_mem_list {α : Type} [SizeOf α] {l : List α} {a : α}
    (h : a ∈ l) : sizeOf a < sizeOf l := by
  induction l with
  | nil => cases h
  | cons b rest ih =>
    rcases List.mem_cons.mp h with rfl | h'
    · simp; omega
    · have := ih h'
      simp
      omega

theorem sizeOf_snd_lt_of_mem {l : List (String × Value)}
    {p : String × Value} (h : p ∈ l) : sizeOf p.2 < sizeOf l := by
  have h1 := sizeOf_lt_of_mem_list h
  obtain ⟨k, v⟩ := p
  simp at h1 ⊢
  omega

theorem sizeOf_lt_of_some_mem {l : List (Option Value)} {v : Value}
    (h : some v ∈ l) : sizeOf v < sizeOf l := by
  have h1 := sizeOf_lt_of_mem_list h
  simp at h1
  omega

theorem firstPerKey_subset {seen : List String}
    {l : List (String × Value)} {p : String × Value}
    (h : p ∈ firstPerKey seen l) : p ∈ l := by
  induction l generalizing seen with
  | nil => simp [firstPerKey] at h
  | cons q rest ih =>
    obtain ⟨k, v⟩ := q
    simp only [firstPerKey] at h
    split at h
    · exact List.mem_cons_of_mem _ (ih h)
    · rcases List.mem_cons.mp h with rfl | h'
      · exact List.mem_cons_self _ _
      · exact List.mem_cons_of_mem _ (ih h')

theorem firstPerKey_key_not_seen {seen : List String}
    {l : List (String × Value)} {p : String × Value}
    (h : p ∈ firstPerKey seen l) : p.1 ∉ seen := by
  induction l generalizing seen with
  | nil => simp [firstPerKey] at h
  | cons q rest ih =>
    obtain ⟨k, v⟩ := q
    simp only [firstPerKey] at h
    split at h
    · exact ih h
    · rcases List.mem_cons.mp h with rfl | h'
      · assumption
      · have := ih h'
        intro hmem
        exact this (List.mem_cons_of_mem _ hmem)

theorem firstPerKey_keys_nodup (seen : List String)
    (l : List (String × Value)) :
    ((firstPerKey seen l).map Prod.fst).Nodup := by
  induction l generalizing seen with
  | nil => simp [firstPerKey]
  | cons q rest ih =>
    obtain ⟨k, v⟩ := q
    simp only [firstPerKey]
    split
    · exact ih seen
    · simp only [List.map_cons, List.nodup_cons]
      refine ⟨?_, ih (k :: seen)⟩
      intro hk
      obtain ⟨p, hp, hpk⟩ := List.mem_map.mp hk
      have := firstPerKey_key_not_seen hp
      rw [hpk] at this
      exact this (List.mem_cons_self _ _)

theorem firstPerKey_eq_self {seen : List String}
    {l : List (String × Value)} (hnd : (l.map Prod.fst).Nodup)
    (hdisj : ∀ k ∈ l.map Prod.fst, k ∉ seen) :
    firstPerKey seen l = l := by
  induction l generalizing seen with
  | nil => simp [firstPerKey]
  | cons q rest ih =>
    obtain ⟨k, v⟩ := q
    simp only [List.map_cons, List.nodup_cons] at hnd
    simp only [firstPerKey]
    rw [if_neg (hdisj k (by simp))]
    congr 1
    refine ih hnd.2 ?_
    intro k' hk'
    simp only [List.mem_cons]
    rintro (rfl | hseen)
    · exact hnd.1 hk'
    · exact hdisj k' (List.mem_cons_of_mem _ hk') hseen

theorem noTrailingHole_trimTrailing (l : List (Option Value)) :
    noTrailingHole (trimTrailing l) = true := by
  induction l with
  | nil => simp [trimTrailing, noTrailingHole]
  | cons x rest ih =>
    cases x with
    | some v =>
      simp only [trimTrailing]
      cases htr : trimTrailing rest with
      | nil => simp [noTrailingHole]
      | cons y r =>
        rw [htr] at ih
        simpa [noTrailingHole] using ih
    | none =>
      simp only [trimTrailing]
      cases htr : trimTrailing rest with
      | nil => simp [noTrailingHole]
      | cons y r =>
        rw [htr] at ih
        simpa [noTrailingHole] using ih

theorem trimTrailing_eq_self {l : List (Option Value)}
    (h : noTrailingHole l = true) : trimTrailing l = l := by
  induction l with
  | nil => simp [trimTrailing]
  | cons x rest ih =>
    cases rest with
    | nil =>
      cases x with
      | some v => simp [trimTrailing]
      | none => simp [noTrailingHole] at h
    | cons y r =>
      have h' : noTrailingHole (y :: r) = true := by
        cases x <;> simpa [noTrailingHole] using h
      have := ih h'
      cases x with
      | some v => simp [trimTrailing, this]
      | none => simp [trimTrailing, this]

theorem trimTrailing_get? {l : List (Option Value)} {i : Nat} {v : Value}
    (h : l[i]? = some (some v)) : (trimTrailing l)[i]? = some (some v) := by
  induction l generalizing i with
  | nil => simp at h
  | cons x rest ih =>
    cases i with
    | zero =>
      simp only [List.getElem?_cons_zero, Option.some.injEq] at h
      subst h
      simp [trimTrailing]
    | succ j =>
      have h' : rest[j]? = some (some v) := by simpa using h
      have hih := ih h'
      have hne : trimTrailing rest ≠ [] := by
        intro hnil
        rw [hnil] at hih
        simp at hih
      cases x with
      | some w => simpa [trimTrailing] using hih
      | none =>
        cases htr : trimTrailing rest with
        | nil => exact absurd htr hne
        | cons y r =>
          rw [htr] at hih
          simpa [trimTrailing, htr] using hih

theorem mem_trimTrailing {l : List (Option Value)} {x : Option Value}
    (h : x ∈ trimTrailing l) : x ∈ l := by
  induction l with
  | nil => simp [trimTrailing] at h
  | cons y rest ih =>
    cases y with
    | some v =>
      simp only [trimTrailing] at h
      rcases List.mem_cons.mp h with rfl | h'
      · exact List.mem_cons_self _ _
      · exact List.mem_cons_of_mem _ (ih h')
    | none =>
      simp only [trimTrailing] at h
      cases htr : trimTrailing rest with
      | nil => rw [htr] at h; cases h
      | cons z r =>
        rw [htr] at h
        rcases List.mem_cons.mp h with rfl | h'
        · exact List.mem_cons_self _ _
        · rw [← htr] at h'
          exact List.mem_cons_of_mem _ (ih h')

theorem duplicate_vstr (s : String) (c : Nat) :
    duplicate (vstr s) c = .ok (vstr s, c) := by
  simp [duplicate, typeOf, _duplicate, identity]

theorem duplicate_vnum (n : Int) (c : Nat) :
    duplicate (vnum n) c = .ok (vnum n, c) := by
  simp [duplicate, typeOf, _duplicate, identity]

theorem duplicate_vbool (b : Bool) (c : Nat) :
    duplicate (vbool b) c = .ok (vbool b, c) := by
  simp [duplicate, typeOf, _duplicate, identity]

theorem duplicate_vnull (c : Nat) :
    duplicate vnull c = .ok (vnull, c) := by
  simp [duplicate, typeOf, _duplicate, identity]

theorem duplicate_vundefined (c : Nat) :
    duplicate vundefined c = .ok (vundefined, c) := by
  simp [duplicate, typeOf, _duplicate, identity]

theorem duplicate_vsymbol (i c : Nat) :
    duplicate (vsymbol i) c = .ok (vsymbol i, c) := by
  simp [duplicate, typeOf, _duplicate, identity]

theorem duplicate_vmath (c : Nat) :
    duplicate vmath c = .ok (vmath, c) := by
  simp [duplicate, typeOf, _duplicate, identity]

theorem duplicate_vjson (c : Nat) :
    duplicate vjson c = .ok (vjson, c) := by
  simp [duplicate, typeOf, _duplicate, identity]

theorem duplicate_vgenerator (a c : Nat) :
    duplicate (vgenerator a) c = .ok (vgenerator a, c) := by
  simp [duplicate, typeOf, _duplicate, identity]

theorem duplicate_vwasm (a c : Nat) :
    duplicate (vwasm a) c = .ok (vwasm a, c) := by
  simp [duplicate, typeOf, _duplicate, identity]

theorem duplicate_vfunction (a : Nat) (k : FKind) (src : String)
    (c : Nat) :
    duplicate (vfunction a k src) c = .ok (vfunction c k src, c + 1) := by
  cases k <;> simp [duplicate, typeOf, _duplicate, duplicateFunction]

theorem duplicate_verror (a : Nat) (nm msg : String)
    (extra : List (String × Value)) (stack : String) (c : Nat) :
    duplicate (verror a nm msg extra stack) c =
      .ok (verror c nm msg [] "", c + 1) := by
  simp [duplicate, typeOf, _duplicate, duplicateError]

theorem duplicate_vregexp (a : Nat) (src fl : String) (c : Nat) :
    duplicate (vregexp a src fl) c = .ok (vregexp c src fl, c + 1) := by
  simp [duplicate, typeOf, _duplicate, duplicateRegExp]

theorem duplicate_vdate (a : Nat) (e : Int) (c : Nat) :
    duplicate (vdate a e) c = .ok (vdate c e, c + 1) := by
  simp [duplicate, typeOf, _duplicate, duplicateDate]

theorem duplicate_vobject (a : Nat) (own proto : List (String × Value))
    (c : Nat) :
    duplicate (vobject a own proto) c = duplicateObject own proto c := by
  simp [duplicate, typeOf, _duplicate]

theorem duplicate_varray (a : Nat) (cells : List (Option Value))
    (extra : List (String × Value)) (c : Nat) :
    duplicate (varray a cells extra) c = duplicateArray cells extra c := by
  simp [duplicate, typeOf, _duplicate]

theorem duplicate_vmap (a : Nat) (entries : List (Value × Value))
    (c : Nat) :
    duplicate (vmap a entries) c = .ok (vmap c entries, c + 1) := by
  simp [duplicate, typeOf, _duplicate, duplicateMapType]

theorem duplicate_vweakmap (a : Nat) (entries : List (Value × Value))
    (c : Nat) :
    duplicate (vweakmap a entries) c =
      .error (.hostTypeError "weakmap is not iterable") := by
  simp [duplicate, typeOf, _duplicate, duplicateMapType]

theorem duplicate_vset (a : Nat) (elems : List Value) (c : Nat) :
    duplicate (vset a elems) c = .ok (vset c elems, c + 1) := by
  simp [duplicate, typeOf, _duplicate, duplicateSetType]

theorem duplicate_vweakset (a : Nat) (elems : List Value) (c : Nat) :
    duplicate (vweakset a elems) c =
      .error (.hostTypeError "weakset is not iterable") := by
  simp [duplicate, typeOf, _duplicate, duplicateSetType]

theorem duplicate_vpromise (a oid c : Nat) :
    duplicate (vpromise a oid) c = .ok (vpromise c oid, c + 1) := by
  simp [duplicate, typeOf, _duplicate, duplicatePromise]

theorem duplicate_vtypedArray (a : Nat) (k : TAKind) (elems : List Int)
    (extra : List (String × Value)) (c : Nat) :
    duplicate (vtypedArray a k elems extra) c =
      duplicateTypedArray k elems extra c := by
  simp [duplicate, typeOf, _duplicate]

theorem duplicate_varrayBuffer (a len c : Nat) :
    duplicate (varrayBuffer a len) c = .ok (varrayBuffer c 0, c + 1) := by
  simp [duplicate, typeOf, _duplicate, duplicateArrayBuffer]

theorem duplicate_vdataView (a b o l c : Nat) :
    duplicate (vdataView a b o l) c =
      .ok (vdataView c b o l, c + 1) := by
  simp [duplicate, typeOf, _duplicate, duplicateDataView]

theorem duplicate_vother (t : String) (a c : Nat) :
    duplicate (vother t a) c = .error (.unsupportedType (.other t)) := by
  simp [duplicate, typeOf, _duplicate]

theorem dupPairs_mono_of {l : List (String × Value)}
    (H : ∀ p ∈ l, ∀ c y c', duplicate p.2 c = .ok (y, c') → c ≤ c') :
    ∀ c l' c', dupPairs l c = .ok (l', c') → c ≤ c' := by
  induction l with
  | nil =>
    intro c l' c' h
    simp only [dupPairs] at h
    simp at h
    omega
  | cons p rest ih =>
    obtain ⟨k, v⟩ := p
    intro c l' c' h
    simp only [dupPairs] at h
    cases hv : duplicate v c with
    | error e => rw [hv] at h; simp at h
    | ok r =>
      obtain ⟨v', c1⟩ := r
      rw [hv] at h
      simp only at h
      cases hr : dupPairs rest c1 with
      | error e => rw [hr] at h; simp at h
      | ok r2 =>
        obtain ⟨rest', c2⟩ := r2
        rw [hr] at h
        simp at h
        have h1 := H (k, v) (List.mem_cons_self _ _) c v' c1 hv
        have h2 := ih (fun p hp => H p (List.mem_cons_of_mem _ hp))
          c1 rest' c2 hr
        omega

theorem dupCells_mono_of {l : List (Option Value)}
    (H : ∀ v, some v ∈ l → ∀ c y c', duplicate v c = .ok (y, c') → c ≤ c') :
    ∀ c l' c', dupCells l c = .ok (l', c') → c ≤ c' := by
  induction l with
  | nil =>
    intro c l' c' h
    simp only [dupCells] at h
    simp at h
    omega
  | cons x rest ih =>
    intro c l' c' h
    cases x with
    | none =>
      simp only [dupCells] at h
      cases hr : dupCells rest c with
      | error e => rw [hr] at h; simp at h
      | ok r =>
        obtain ⟨rest', c1⟩ := r
        rw [hr] at h
        simp at h
        have := ih (fun v hv => H v (List.mem_cons_of_mem _ hv)) c rest' c1 hr
        omega
    | some v =>
      simp only [dupCells] at h
      cases hv : duplicate v c with
      | error e => rw [hv] at h; simp at h
      | ok r =>
        obtain ⟨v', c1⟩ := r
        rw [hv] at h
        simp only at h
        cases hr : dupCells rest c1 with
        | error e => rw [hr] at h; simp at h
        | ok r2 =>
          obtain ⟨rest', c2⟩ := r2
          rw [hr] at h
          simp at h
          have h1 := H v (List.mem_cons_self _ _) c v' c1 hv
          have h2 := ih (fun w hw => H w (List.mem_cons_of_mem _ hw))
            c1 rest' c2 hr
          omega

theorem dup_mono :
    ∀ (v : Value) (c : Nat) (y : Value) (c' : Nat),
      duplicate v c = .ok (y, c') → c ≤ c' := by
  have main : ∀ (n : Nat) (v : Value), sizeOf v ≤ n →
      ∀ c y c', duplicate v c = .ok (y, c') → c ≤ c' := by
    intro n
    induction n with
    | zero =>
      intro v hv
      exfalso
      cases v <;> simp at hv
    | succ n ih =>
      intro v hv c y c' h
      cases v with
      | vstr s =>
        rw [duplicate_vstr] at h
        simp at h
        omega
      | vnum m =>
        rw [duplicate_vnum] at h
        simp at h
        omega
      | vbool b =>
        rw [duplicate_vbool] at h
        simp at h
        omega
      | vnull =>
        rw [duplicate_vnull] at h
        simp at h
        omega
      | vundefined =>
        rw [duplicate_vundefined] at h
        simp at h
        omega
      | vsymbol i =>
        rw [duplicate_vsymbol] at h
        simp at h
        omega
      | vmath =>
        rw [duplicate_vmath] at h
        simp at h
        omega
      | vjson =>
        rw [duplicate_vjson] at h
        simp at h
        omega
      | vgenerator a =>
        rw [duplicate_vgenerator] at h
        simp at h
        omega
      | vwasm a =>
        rw [duplicate_vwasm] at h
        simp at h
        omega
      | vfunction a k src =>
        rw [duplicate_vfunction] at h
        simp at h
        omega
      | verror a nm msg extra stack =>
        rw [duplicate_verror] at h
        simp at h
        omega
      | vregexp a src fl =>
        rw [duplicate_vregexp] at h
        simp at h
        omega
      | vdate a e =>
        rw [duplicate_vdate] at h
        simp at h
        omega
      | vmap a entries =>
        rw [duplicate_vmap] at h
        simp at h
        omega
      | vweakmap a entries =>
        rw [duplicate_vweakmap] at h
        simp at h
      | vset a elems =>
        rw [duplicate_vset] at h
        simp at h
        omega
      | vweakset a elems =>
        rw [duplicate_vweakset] at h
        simp at h
      | vpromise a oid =>
        rw [duplicate_vpromise] at h
        simp at h
        omega
      | varrayBuffer a len =>
        rw [duplicate_varrayBuffer] at h
        simp at h
        omega
      | vdataView a b o l =>
        rw [duplicate_vdataView] at h
        simp at h
        omega
      | vother t a =>
        rw [duplicate_vother] at h
        simp at h
      | vobject a own proto =>
        rw [duplicate_vobject] at h
        simp only [duplicateObject] at h
        cases hdp : dupPairs (forInItems own proto) (c + 1) with
        | error e => rw [hdp] at h; simp at h
        | ok pr =>
          obtain ⟨ps, c2⟩ := pr
          rw [hdp] at h
          simp at h
          have hm : c + 1 ≤ c2 := by
            refine dupPairs_mono_of ?_ _ _ _ hdp
            intro p hp cc yy cc' hdup
            have hmem := firstPerKey_subset hp
            have hs1 := sizeOf_snd_lt_of_mem hmem
            have hs2 := sizeOf_list_append own proto
            have hv' : sizeOf p.2 ≤ n := by
              simp at hv
              omega
            exact ih p.2 hv' cc yy cc' hdup
          omega
      | varray a cells extra =>
        rw [duplicate_varray] at h
        simp only [duplicateArray] at h
        cases hdc : dupCells cells (c + 1) with
        | error e => rw [hdc] at h; simp at h
        | ok pr =>
          obtain ⟨cells', c2⟩ := pr
          rw [hdc] at h
          simp only at h
          cases hdp : dupPairs (firstPerKey [] extra) c2 with
          | error e => rw [hdp] at h; simp at h
          | ok pr2 =>
            obtain ⟨extra', c3⟩ := pr2
            rw [hdp] at h
            simp at h
            have hm1 : c + 1 ≤ c2 := by
              refine dupCells_mono_of ?_ _ _ _ hdc
              intro w hw cc yy cc' hdup
              have hs1 := sizeOf_lt_of_some_mem hw
              have hv' : sizeOf w ≤ n := by
                simp at hv
                omega
              exact ih w hv' cc yy cc' hdup
            have hm2 : c2 ≤ c3 := by
              refine dupPairs_mono_of ?_ _ _ _ hdp
              intro p hp cc yy cc' hdup
              have hmem := firstPerKey_subset hp
              have hs1 := sizeOf_snd_lt_of_mem hmem
              have hv' : sizeOf p.2 ≤ n := by
                simp at hv
                omega
              exact ih p.2 hv' cc yy cc' hdup
            omega
      | vtypedArray a k elems extra =>
        rw [duplicate_vtypedArray] at h
        simp only [duplicateTypedArray] at h
        cases hdp : dupPairs (firstPerKey [] extra) (c + 1) with
        | error e => rw [hdp] at h; simp at h
        | ok pr =>
          obtain ⟨extra', c2⟩ := pr
          rw [hdp] at h
          simp at h
          have hm : c + 1 ≤ c2 := by
            refine dupPairs_mono_of ?_ _ _ _ hdp
            intro p hp cc yy cc' hdup
            have hmem := firstPerKey_subset hp
            have hs1 := sizeOf_snd_lt_of_mem hmem
            have hv' : sizeOf p.2 ≤ n := by
              simp at hv
              omega
            exact ih p.2 hv' cc yy cc' hdup
          omega
  intro v
  exact main (sizeOf v) v le_rfl

theorem dupPairs_mono {l : List (String × Value)} {c : Nat}
    {l' : List (String × Value)} {c' : Nat}
    (h : dupPairs l c = .ok (l', c')) : c ≤ c' :=
  dupPairs_mono_of (fun p _ => dup_mono p.2) c l' c' h

theorem dupCells_mono {l : List (Option Value)} {c : Nat}
    {l' : List (Option Value)} {c' : Nat}
    (h : dupCells l c = .ok (l', c')) : c ≤ c' :=
  dupCells_mono_of (fun v _ => dup_mono v) c l' c' h

theorem dupPairs_getq {l : List (String × Value)} :
    ∀ {c : Nat} {l' : List (String × Value)} {c' : Nat},
      dupPairs l c = .ok (l', c') →
      l'.length = l.length ∧ l'.map Prod.fst = l.map Prod.fst ∧
      ∀ (i : Nat) (p p' : String × Value),
        l[i]? = some p → l'[i]? = some p' →
        p'.1 = p.1 ∧
        ∃ ci ci', c ≤ ci ∧ duplicate p.2 ci = .ok (p'.2, ci') ∧
          ci' ≤ c' := by
  induction l with
  | nil =>
    intro c l' c' h
    simp only [dupPairs] at h
    simp at h
    obtain ⟨h1, -⟩ := h
    subst h1
    refine ⟨rfl, rfl, ?_⟩
    intro i p p' hp
    simp at hp
  | cons q rest ih =>
    obtain ⟨k, v⟩ := q
    intro c l' c' h
    simp only [dupPairs] at h
    cases hv : duplicate v c with
    | error e => rw [hv] at h; simp at h
    | ok r =>
      obtain ⟨v', c1⟩ := r
      rw [hv] at h
      simp only at h
      cases hr : dupPairs rest c1 with
      | error e => rw [hr] at h; simp at h
      | ok r2 =>
        obtain ⟨rest', c2⟩ := r2
        rw [hr] at h
        simp at h
        obtain ⟨h1, h2⟩ := h
        subst h1
        subst h2
        obtain ⟨hlen, hfst, hpt⟩ := ih hr
        have hc1 := dup_mono _ _ _ _ hv
        have hc2 := dupPairs_mono hr
        refine ⟨by simp [hlen], by simp [hfst], ?_⟩
        intro i p p' hp hp'
        cases i with
        | zero =>
          simp only [List.getElem?_cons_zero, Option.some.injEq] at hp hp'
          subst hp
          subst hp'
          exact ⟨rfl, c, c1, le_rfl, hv, hc2⟩
        | succ j =>
          simp only [List.getElem?_cons_succ] at hp hp'
          obtain ⟨hf, ci, ci', hle, hdup, hle'⟩ := hpt j p p' hp hp'
          exact ⟨hf, ci, ci', by omega, hdup, hle'⟩

theorem dupCells_getq {l : List (Option Value)} :
    ∀ {c : Nat} {l' : List (Option Value)} {c' : Nat},
      dupCells l c = .ok (l', c') →
      l'.length = l.length ∧
      (∀ i : Nat, l[i]? = some none ↔ l'[i]? = some none) ∧
      ∀ (i : Nat) (v w : Value),
        l[i]? = some (some v) → l'[i]? = some (some w) →
        ∃ ci ci', c ≤ ci ∧ duplicate v ci = .ok (w, ci') ∧ ci' ≤ c' := by
  induction l with
  | nil =>
    intro c l' c' h
    simp only [dupCells] at h
    simp at h
    obtain ⟨h1, -⟩ := h
    subst h1
    refine ⟨rfl, fun i => Iff.rfl, ?_⟩
    intro i v w hp
    simp at hp
  | cons x rest ih =>
    intro c l' c' h
    cases x with
    | none =>
      simp only [dupCells] at h
      cases hr : dupCells rest c with
      | error e => rw [hr] at h; simp at h
      | ok r =>
        obtain ⟨rest', c1⟩ := r
        rw [hr] at h
        simp at h
        obtain ⟨h1, h2⟩ := h
        subst h1
        subst h2
        obtain ⟨hlen, hnone, hpt⟩ := ih hr
        refine ⟨by simp [hlen], ?_, ?_⟩
        · intro i
          cases i with
          | zero => simp
          | succ j => simpa using hnone j
        · intro i v w hp hp'
          cases i with
          | zero => simp at hp
          | succ j =>
            simp only [List.getElem?_cons_succ] at hp hp'
            exact hpt j v w hp hp'
    | some u =>
      simp only [dupCells] at h
      cases hv : duplicate u c with
      | error e => rw [hv] at h; simp at h
      | ok r =>
        obtain ⟨u', c1⟩ := r
        rw [hv] at h
        simp only at h
        cases hr : dupCells rest c1 with
        | error e => rw [hr] at h; simp at h
        | ok r2 =>
          obtain ⟨rest', c2⟩ := r2
          rw [hr] at h
          simp at h
          obtain ⟨h1, h2⟩ := h
          subst h1
          subst h2
          obtain ⟨hlen, hnone, hpt⟩ := ih hr
          have hc1 := dup_mono _ _ _ _ hv
          have hc2 := dupCells_mono hr
          refine ⟨by simp [hlen], ?_, ?_⟩
          · intro i
            cases i with
            | zero => simp
            | succ j => simpa using hnone j
          · intro i v w hp hp'
            cases i with
            | zero =>
              simp only [List.getElem?_cons_zero, Option.some.injEq,
                Option.some.injEq] at hp hp'
              subst hp
              subst hp'
              exact ⟨c, c1, le_rfl, hv, hc2⟩
            | succ j =>
              simp only [List.getElem?_cons_succ] at hp hp'
              obtain ⟨ci, ci', hle, hdup, hle'⟩ := hpt j v w hp hp'
              exact ⟨ci, ci', by omega, hdup, hle'⟩

theorem normPairs_congr {l l' : List (String × Value)}
    (hlen : l'.length = l.length)
    (hfst : l'.map Prod.fst = l.map Prod.fst)
    (hval : ∀ (i : Nat) (p p' : String × Value),
      l[i]? = some p → l'[i]? = some p' →
      normalize p'.2 = normalize p.2) :
    normPairs l' = normPairs l := by
  induction l generalizing l' with
  | nil =>
    cases l' with
    | nil => rfl
    | cons q r => simp at hlen
  | cons p rest ih =>
    cases l' with
    | nil => simp at hlen
    | cons p' rest' =>
      obtain ⟨k, v⟩ := p
      obtain ⟨k', v'⟩ := p'
      simp only [List.map_cons, List.cons.injEq] at hfst
      have h0 := hval 0 (k, v) (k', v') (by simp) (by simp)
      simp only [normPairs]
      rw [hfst.1, h0]
      rw [ih (by simpa using hlen) hfst.2 ?_]
      intro i p p' hp hp'
      exact hval (i + 1) p p' (by simpa using hp) (by simpa using hp')

theorem normCells_congr {l l' : List (Option Value)}
    (hlen : l'.length = l.length)
    (hnone : ∀ i : Nat, l[i]? = some none ↔ l'[i]? = some none)
    (hval : ∀ (i : Nat) (v w : Value),
      l[i]? = some (some v) → l'[i]? = some (some w) →
      normalize w = normalize v) :
    normCells l' = normCells l := by
  induction l generalizing l' with
  | nil =>
    cases l' with
    | nil => rfl
    | cons q r => simp at hlen
  | cons x rest ih =>
    cases l' with
    | nil => simp at hlen
    | cons x' rest' =>
      have htail : normCells rest' = normCells rest := by
        refine ih (by simpa using hlen) ?_ ?_
        · intro i
          simpa using hnone (i + 1)
        · intro i v w hp hp'
          exact hval (i + 1) v w (by simpa using hp) (by simpa using hp')
      cases x with
      | none =>
        have hx' : x' = none := by
          have := (hnone 0).mp (by simp)
          simpa using this
        subst hx'
        simp only [normCells]
        rw [htail]
      | some v =>
        cases x' with
        | none =>
          have := (hnone 0).mpr (by simp)
          simp at this
        | some w =>
          have h0 := hval 0 v w (by simp) (by simp)
          simp only [normCells]
          rw [htail, h0]

theorem noTrailingHole_congr {l l' : List (Option Value)}
    (hlen : l'.length = l.length)
    (hnone : ∀ i : Nat, l[i]? = some none ↔ l'[i]? = some none) :
    noTrailingHole l' = noTrailingHole l := by
  induction l generalizing l' with
  | nil =>
    cases l' with
    | nil => rfl
    | cons q r => simp at hlen
  | cons x rest ih =>
    cases l' with
    | nil => simp at hlen
    | cons x' rest' =>
      cases rest with
      | nil =>
        cases rest' with
        | nil =>
          cases x with
          | none =>
            have hx' : x' = none := by
              have := (hnone 0).mp (by simp)
              simpa using this
            subst hx'
            rfl
          | some v =>
            cases x' with
            | none =>
              have := (hnone 0).mpr (by simp)
              simp at this
            | some w => rfl
        | cons y' r' => simp at hlen
      | cons y r =>
        cases rest' with
        | nil => simp at hlen
        | cons y' r' =>
          have htail : noTrailingHole (y' :: r') = noTrailingHole (y :: r) := by
            refine ih (by simpa using hlen) ?_
            intro i
            simpa using hnone (i + 1)
          simpa [noTrailingHole] using htail

theorem canonPairs_mem {l : List (String × Value)}
    (h : canonPairs l = true) : ∀ p ∈ l, canonV p.2 = true := by
  induction l with
  | nil => intro p hp; cases hp
  | cons q rest ih =>
    obtain ⟨k, v⟩ := q
    simp only [canonPairs, Bool.and_eq_true] at h
    intro p hp
    rcases List.mem_cons.mp hp with rfl | hp'
    · exact h.1
    · exact ih h.2 p hp'

theorem canonPairs_of_forall {l : List (String × Value)}
    (h : ∀ p ∈ l, canonV p.2 = true) : canonPairs l = true := by
  induction l with
  | nil => simp [canonPairs]
  | cons q rest ih =>
    obtain ⟨k, v⟩ := q
    simp only [canonPairs, Bool.and_eq_true]
    exact ⟨h (k, v) (List.mem_cons_self _ _),
      ih (fun p hp => h p (List.mem_cons_of_mem _ hp))⟩

theorem canonCells_mem {l : List (Option Value)}
    (h : canonCells l = true) : ∀ v, some v ∈ l → canonV v = true := by
  induction l with
  | nil => intro v hv; cases hv
  | cons x rest ih =>
    intro v hv
    cases x with
    | none =>
      simp only [canonCells] at h
      rcases List.mem_cons.mp hv with heq | hv'
      · cases heq
      · exact ih h v hv'
    | some u =>
      simp only [canonCells, Bool.and_eq_true] at h
      rcases List.mem_cons.mp hv with heq | hv'
      · cases heq; exact h.1
      · exact ih h.2 v hv'

theorem canonCells_of_forall {l : List (Option Value)}
    (h : ∀ v, some v ∈ l → canonV v = true) : canonCells l = true := by
  induction l with
  | nil => simp [canonCells]
  | cons x rest ih =>
    cases x with
    | none =>
      simp only [canonCells]
      exact ih (fun v hv => h v (List.mem_cons_of_mem _ hv))
    | some u =>
      simp only [canonCells, Bool.and_eq_true]
      exact ⟨h u (List.mem_cons_self _ _),
        ih (fun v hv => h v (List.mem_cons_of_mem _ hv))⟩

theorem dupPairs_canon_of {l : List (String × Value)}
    (H : ∀ p ∈ l, ∀ c y c', duplicate p.2 c = .ok (y, c') →
      canonV y = true) :
    ∀ {c : Nat} {l' : List (String × Value)} {c' : Nat},
      dupPairs l c = .ok (l', c') → canonPairs l' = true := by
  induction l with
  | nil =>
    intro c l' c' h
    simp only [dupPairs] at h
    simp at h
    obtain ⟨h1, -⟩ := h
    subst h1
    simp [canonPairs]
  | cons q rest ih =>
    obtain ⟨k, v⟩ := q
    intro c l' c' h
    simp only [dupPairs] at h
    cases hv : duplicate v c with
    | error e => rw [hv] at h; simp at h
    | ok r =>
      obtain ⟨v', c1⟩ := r
      rw [hv] at h
      simp only at h
      cases hr : dupPairs rest c1 with
      | error e => rw [hr] at h; simp at h
      | ok r2 =>
        obtain ⟨rest', c2⟩ := r2
        rw [hr] at h
        simp at h
        obtain ⟨h1, -⟩ := h
        subst h1
        simp only [canonPairs, Bool.and_eq_true]
        exact ⟨H (k, v) (List.mem_cons_self _ _) c v' c1 hv,
          ih (fun p hp => H p (List.mem_cons_of_mem _ hp)) hr⟩

theorem dupCells_canon_of {l : List (Option Value)}
    (H : ∀ v, some v ∈ l → ∀ c y c', duplicate v c = .ok (y, c') →
      canonV y = true) :
    ∀ {c : Nat} {l' : List (Option Value)} {c' : Nat},
      dupCells l c = .ok (l', c') → canonCells l' = true := by
  induction l with
  | nil =>
    intro c l' c' h
    simp only [dupCells] at h
    simp at h
    obtain ⟨h1, -⟩ := h
    subst h1
    simp [canonCells]
  | cons x rest ih =>
    intro c l' c' h
    cases x with
    | none =>
      simp only [dupCells] at h
      cases hr : dupCells rest c with
      | error e => rw [hr] at h; simp at h
      | ok r =>
        obtain ⟨rest', c1⟩ := r
        rw [hr] at h
        simp at h
        obtain ⟨h1, -⟩ := h
        subst h1
        simp only [canonCells]
        exact ih (fun v hv => H v (List.mem_cons_of_mem _ hv)) hr
    | some u =>
      simp only [dupCells] at h
      cases hv : duplicate u c with
      | error e => rw [hv] at h; simp at h
      | ok r =>
        obtain ⟨u', c1⟩ := r
        rw [hv] at h
        simp only at h
        cases hr : dupCells rest c1 with
        | error e => rw [hr] at h; simp at h
        | ok r2 =>
          obtain ⟨rest', c2⟩ := r2
          rw [hr] at h
          simp at h
          obtain ⟨h1, -⟩ := h
          subst h1
          simp only [canonCells, Bool.and_eq_true]
          exact ⟨H u (List.mem_cons_self _ _) c u' c1 hv,
            ih (fun v hv => H v (List.mem_cons_of_mem _ hv)) hr⟩

theorem dup_canon :
    ∀ (v : Value) (c : Nat) (y : Value) (c' : Nat),
      duplicate v c = .ok (y, c') → canonV y = true := by
  have main : ∀ (n : Nat) (v : Value), sizeOf v ≤ n →
      ∀ c y c', duplicate v c = .ok (y, c') → canonV y = true := by
    intro n
    induction n with
    | zero =>
      intro v hv
      exfalso
      cases v <;> simp at hv
    | succ n ih =>
      intro v hv c y c' h
      cases v with
      | vstr s =>
        rw [duplicate_vstr] at h
        simp at h
        obtain ⟨h1, -⟩ := h
        subst h1
        simp [canonV]
      | vnum m =>
        rw [duplicate_vnum] at h
        simp at h
        obtain ⟨h1, -⟩ := h
        subst h1
        simp [canonV]
      | vbool b =>
        rw [duplicate_vbool] at h
        simp at h
        obtain ⟨h1, -⟩ := h
        subst h1
        simp [canonV]
      | vnull =>
        rw [duplicate_vnull] at h
        simp at h
        obtain ⟨h1, -⟩ := h
        subst h1
        simp [canonV]
      | vundefined =>
        rw [duplicate_vundefined] at h
        simp at h
        obtain ⟨h1, -⟩ := h
        subst h1
        simp [canonV]
      | vsymbol i =>
        rw [duplicate_vsymbol] at h
        simp at h
        obtain ⟨h1, -⟩ := h
        subst h1
        simp [canonV]
      | vmath =>
        rw [duplicate_vmath] at h
        simp at h
        obtain ⟨h1, -⟩ := h
        subst h1
        simp [canonV]
      | vjson =>
        rw [duplicate_vjson] at h
        simp at h
        obtain ⟨h1, -⟩ := h
        subst h1
        simp [canonV]
      | vgenerator a =>
        rw [duplicate_vgenerator] at h
        simp at h
        obtain ⟨h1, -⟩ := h
        subst h1
        simp [canonV]
      | vwasm a =>
        rw [duplicate_vwasm] at h
        simp at h
        obtain ⟨h1, -⟩ := h
        subst h1
        simp [canonV]
      | vfunction a k src =>
        rw [duplicate_vfunction] at h
        simp at h
        obtain ⟨h1, -⟩ := h
        subst h1
        simp [canonV]
      | verror a nm msg extra stack =>
        rw [duplicate_verror] at h
        simp at h
        obtain ⟨h1, -⟩ := h
        subst h1
        simp [canonV]
      | vregexp a src fl =>
        rw [duplicate_vregexp] at h
        simp at h
        obtain ⟨h1, -⟩ := h
        subst h1
        simp [canonV]
      | vdate a e =>
        rw [duplicate_vdate] at h
        simp at h
        obtain ⟨h1, -⟩ := h
        subst h1
        simp [canonV]
      | vmap a entries =>
        rw [duplicate_vmap] at h
        simp at h
        obtain ⟨h1, -⟩ := h
        subst h1
        simp [canonV]
      | vweakmap a entries =>
        rw [duplicate_vweakmap] at h
        simp at h
      | vset a elems =>
        rw [duplicate_vset] at h
        simp at h
        obtain ⟨h1, -⟩ := h
        subst h1
        simp [canonV]
      | vweakset a elems =>
        rw [duplicate_vweakset] at h
        simp at h
      | vpromise a oid =>
        rw [duplicate_vpromise] at h
        simp at h
        obtain ⟨h1, -⟩ := h
        subst h1
        simp [canonV]
      | varrayBuffer a len =>
        rw [duplicate_varrayBuffer] at h
        simp at h
        obtain ⟨h1, -⟩ := h
        subst h1
        simp [canonV]
      | vdataView a b o l =>
        rw [duplicate_vdataView] at h
        simp at h
        obtain ⟨h1, -⟩ := h
        subst h1
        simp [canonV]
      | vother t a =>
        rw [duplicate_vother] at h
        simp at h
      | vobject a own proto =>
        rw [duplicate_vobject] at h
        simp only [duplicateObject] at h
        cases hdp : dupPairs (forInItems own proto) (c + 1) with
        | error e => rw [hdp] at h; simp at h
        | ok pr =>
          obtain ⟨ps, c2⟩ := pr
          rw [hdp] at h
          simp at h
          obtain ⟨h1, -⟩ := h
          subst h1
          simp only [canonV, List.isEmpty_nil, Bool.true_and]
          refine dupPairs_canon_of ?_ hdp
          intro p hp cc yy cc' hdup
          have hmem := firstPerKey_subset hp
          have hs1 := sizeOf_snd_lt_of_mem hmem
          have hs2 := sizeOf_list_append own proto
          have hv' : sizeOf p.2 ≤ n := by
            simp at hv
            omega
          exact ih p.2 hv' cc yy cc' hdup
      | varray a cells extra =>
        rw [duplicate_varray] at h
        simp only [duplicateArray] at h
        cases hdc : dupCells cells (c + 1) with
        | error e => rw [hdc] at h; simp at h
        | ok pr =>
          obtain ⟨cells', c2⟩ := pr
          rw [hdc] at h
          simp only at h
          cases hdp : dupPairs (firstPerKey [] extra) c2 with
          | error e => rw [hdp] at h; simp at h
          | ok pr2 =>
            obtain ⟨extra', c3⟩ := pr2
            rw [hdp] at h
            simp at h
            obtain ⟨h1, -⟩ := h
            subst h1
            have hcc : canonCells cells' = true := by
              refine dupCells_canon_of ?_ hdc
              intro w hw cc yy cc' hdup
              have hs1 := sizeOf_lt_of_some_mem hw
              have hv' : sizeOf w ≤ n := by
                simp at hv
                omega
              exact ih w hv' cc yy cc' hdup
            have hcp : canonPairs extra' = true := by
              refine dupPairs_canon_of ?_ hdp
              intro p hp cc yy cc' hdup
              have hmem := firstPerKey_subset hp
              have hs1 := sizeOf_snd_lt_of_mem hmem
              have hv' : sizeOf p.2 ≤ n := by
                simp at hv
                omega
              exact ih p.2 hv' cc yy cc' hdup
            simp only [canonV, Bool.and_eq_true]
            refine ⟨⟨noTrailingHole_trimTrailing _, ?_⟩, hcp⟩
            refine canonCells_of_forall ?_
            intro w hw
            exact canonCells_mem hcc w (mem_trimTrailing hw)
      | vtypedArray a k elems extra =>
        rw [duplicate_vtypedArray] at h
        simp only [duplicateTypedArray] at h
        cases hdp : dupPairs (firstPerKey [] extra) (c + 1) with
        | error e => rw [hdp] at h; simp at h
        | ok pr =>
          obtain ⟨extra', c2⟩ := pr
          rw [hdp] at h
          simp at h
          obtain ⟨h1, -⟩ := h
          subst h1
          simp only [canonV]
          refine dupPairs_canon_of ?_ hdp
          intro p hp cc yy cc' hdup
          have hmem := firstPerKey_subset hp
          have hs1 := sizeOf_snd_lt_of_mem hmem
          have hv' : sizeOf p.2 ≤ n := by
            simp at hv
            omega
          exact ih p.2 hv' cc yy cc' hdup
  intro v
  exact main (sizeOf v) v le_rfl

theorem dupPairs_ok_of {l : List (String × Value)}
    (H : ∀ p ∈ l, ∀ c : Nat, ∃ y c', duplicate p.2 c = .ok (y, c') ∧
      normalize y = normalize p.2) :
    ∀ c : Nat, ∃ l' c', dupPairs l c = .ok (l', c') ∧
      l'.map Prod.fst = l.map Prod.fst ∧ normPairs l' = normPairs l := by
  induction l with
  | nil =>
    intro c
    exact ⟨[], c, by simp [dupPairs], rfl, rfl⟩
  | cons q rest ih =>
    obtain ⟨k, v⟩ := q
    intro c
    obtain ⟨v', c1, hv, hnv⟩ := H (k, v) (List.mem_cons_self _ _) c
    obtain ⟨rest', c2, hr, hfst, hnp⟩ :=
      ih (fun p hp => H p (List.mem_cons_of_mem _ hp)) c1
    refine ⟨(k, v') :: rest', c2, ?_, by simp [hfst], ?_⟩
    · simp only [dupPairs, hv]
      simp only at *
      rw [hr]
    · simp only [normPairs]
      rw [hnv, hnp]

theorem dupCells_ok_of {l : List (Option Value)}
    (H : ∀ v, some v ∈ l → ∀ c : Nat, ∃ y c',
      duplicate v c = .ok (y, c') ∧ normalize y = normalize v) :
    ∀ c : Nat, ∃ l' c', dupCells l c = .ok (l', c') ∧
      normCells l' = normCells l ∧ l'.length = l.length ∧
      (∀ i : Nat, l[i]? = some none ↔ l'[i]? = some none) := by
  induction l with
  | nil =>
    intro c
    exact ⟨[], c, by simp [dupCells], rfl, rfl, fun i => Iff.rfl⟩
  | cons x rest ih =>
    intro c
    cases x with
    | none =>
      obtain ⟨rest', c1, hr, hnorm, hlen, hnone⟩ :=
        ih (fun v hv => H v (List.mem_cons_of_mem _ hv)) c
      refine ⟨none :: rest', c1, ?_, ?_, by simp [hlen], ?_⟩
      · simp only [dupCells]
        rw [hr]
      · simp only [normCells]
        rw [hnorm]
      · intro i
        cases i with
        | zero => simp
        | succ j => simpa using hnone j
    | some u =>
      obtain ⟨u', c1, hu, hnu⟩ := H u (List.mem_cons_self _ _) c
      obtain ⟨rest', c2, hr, hnorm, hlen, hnone⟩ :=
        ih (fun v hv => H v (List.mem_cons_of_mem _ hv)) c1
      refine ⟨some u' :: rest', c2, ?_, ?_, by simp [hlen], ?_⟩
      · simp only [dupCells, hu]
        simp only at *
        rw [hr]
      · simp only [normCells]
        rw [hnu, hnorm]
      · intro i
        cases i with
        | zero => simp
        | succ j => simpa using hnone j

theorem canon_dup :
    ∀ (v : Value), canonV v = true → ∀ c : Nat,
      ∃ y c', duplicate v c = .ok (y, c') ∧
        normalize y = normalize v := by
  have main : ∀ (n : Nat) (v : Value), sizeOf v ≤ n →
      canonV v = true → ∀ c : Nat,
      ∃ y c', duplicate v c = .ok (y, c') ∧
        normalize y = normalize v := by
    intro n
    induction n with
    | zero =>
      intro v hv
      exfalso
      cases v <;> simp at hv
    | succ n ih =>
      intro v hv hcan c
      cases v with
      | vstr s => exact ⟨vstr s, c, duplicate_vstr s c, rfl⟩
      | vnum m => exact ⟨vnum m, c, duplicate_vnum m c, rfl⟩
      | vbool b => exact ⟨vbool b, c, duplicate_vbool b c, rfl⟩
      | vnull => exact ⟨vnull, c, duplicate_vnull c, rfl⟩
      | vundefined => exact ⟨vundefined, c, duplicate_vundefined c, rfl⟩
      | vsymbol i => exact ⟨vsymbol i, c, duplicate_vsymbol i c, rfl⟩
      | vmath => exact ⟨vmath, c, duplicate_vmath c, rfl⟩
      | vjson => exact ⟨vjson, c, duplicate_vjson c, rfl⟩
      | vgenerator a => exact ⟨vgenerator a, c, duplicate_vgenerator a c, rfl⟩
      | vwasm a => exact ⟨vwasm a, c, duplicate_vwasm a c, rfl⟩
      | vfunction a k src =>
        exact ⟨vfunction c k src, c + 1, duplicate_vfunction a k src c,
          by simp [normalize]⟩
      | vregexp a src fl =>
        exact ⟨vregexp c src fl, c + 1, duplicate_vregexp a src fl c,
          by simp [normalize]⟩
      | vdate a e =>
        exact ⟨vdate c e, c + 1, duplicate_vdate a e c,
          by simp [normalize]⟩
      | vmap a entries =>
        exact ⟨vmap c entries, c + 1, duplicate_vmap a entries c,
          by simp [normalize]⟩
      | vset a elems =>
        exact ⟨vset c elems, c + 1, duplicate_vset a elems c,
          by simp [normalize]⟩
      | vpromise a oid =>
        exact ⟨vpromise c oid, c + 1, duplicate_vpromise a oid c,
          by simp [normalize]⟩
      | vdataView a b o l =>
        exact ⟨vdataView c b o l, c + 1, duplicate_vdataView a b o l c,
          by simp [normalize]⟩
      | verror a nm msg extra stack =>
        simp only [canonV, Bool.and_eq_true] at hcan
        obtain ⟨h1, h2⟩ := hcan
        have hextra : extra = [] := by simpa using h1
        have hstack : stack = "" := by simpa using h2
        subst hextra
        subst hstack
        exact ⟨verror c nm msg [] "", c + 1,
          duplicate_verror a nm msg [] "" c, by simp [normalize]⟩
      | varrayBuffer a len =>
        have hlen : len = 0 := by simpa [canonV] using hcan
        subst hlen
        exact ⟨varrayBuffer c 0, c + 1, duplicate_varrayBuffer a 0 c,
          by simp [normalize]⟩
      | vweakmap a entries => simp [canonV] at hcan
      | vweakset a elems => simp [canonV] at hcan
      | vother t a => simp [canonV] at hcan
      | vobject a own proto =>
        simp only [canonV, Bool.and_eq_true] at hcan
        obtain ⟨h1, h2⟩ := hcan
        have hproto : proto = [] := by simpa using h1
        subst hproto
        have hitems : forInItems own [] = firstPerKey [] own := by
          simp [forInItems]
        have H : ∀ p ∈ firstPerKey [] own, ∀ cc : Nat, ∃ y c',
            duplicate p.2 cc = .ok (y, c') ∧
            normalize y = normalize p.2 := by
          intro p hp cc
          have hmem := firstPerKey_subset hp
          have hs1 := sizeOf_snd_lt_of_mem hmem
          have hv' : sizeOf p.2 ≤ n := by
            simp at hv
            omega
          exact ih p.2 hv' (canonPairs_mem h2 p hmem) cc
        obtain ⟨ps, c2, hdp, hfst, hnp⟩ := dupPairs_ok_of H (c + 1)
        refine ⟨vobject c ps [], c2, ?_, ?_⟩
        · rw [duplicate_vobject]
          simp only [duplicateObject, hitems, hdp]
        · have hnodup : (ps.map Prod.fst).Nodup := by
            rw [hfst]
            exact firstPerKey_keys_nodup [] own
          have hps : firstPerKey [] ps = ps :=
            firstPerKey_eq_self hnodup (by simp)
          simp only [normalize, forInItems, List.append_nil]
          rw [hps, hnp]
      | varray a cells extra =>
        simp only [canonV, Bool.and_eq_true] at hcan
        obtain ⟨⟨h1, h2⟩, h3⟩ := hcan
        have Hc : ∀ w, some w ∈ cells → ∀ cc : Nat, ∃ y c',
            duplicate w cc = .ok (y, c') ∧
            normalize y = normalize w := by
          intro w hw cc
          have hs1 := sizeOf_lt_of_some_mem hw
          have hv' : sizeOf w ≤ n := by
            simp at hv
            omega
          exact ih w hv' (canonCells_mem h2 w hw) cc
        obtain ⟨cells', c2, hdc, hnorm, hlen, hnone⟩ := dupCells_ok_of Hc (c + 1)
        have Hp : ∀ p ∈ firstPerKey [] extra, ∀ cc : Nat, ∃ y c',
            duplicate p.2 cc = .ok (y, c') ∧
            normalize y = normalize p.2 := by
          intro p hp cc
          have hmem := firstPerKey_subset hp
          have hs1 := sizeOf_snd_lt_of_mem hmem
          have hv' : sizeOf p.2 ≤ n := by
            simp at hv
            omega
          exact ih p.2 hv' (canonPairs_mem h3 p hmem) cc
        obtain ⟨extra', c3, hdp, hfst, hnp⟩ := dupPairs_ok_of Hp c2
        have hnth : noTrailingHole cells' = true := by
          rw [noTrailingHole_congr hlen hnone]
          exact h1
        have htrim : trimTrailing cells' = cells' := trimTrailing_eq_self hnth
        refine ⟨varray c cells' extra', c3, ?_, ?_⟩
        · rw [duplicate_varray]
          simp only [duplicateArray, hdc]
          simp only at *
          rw [hdp, htrim]
        · have hnodup : (extra'.map Prod.fst).Nodup := by
            rw [hfst]
            exact firstPerKey_keys_nodup [] extra
          have hex : firstPerKey [] extra' = extra' :=
            firstPerKey_eq_self hnodup (by simp)
          simp only [normalize]
          rw [hex, hnp, hnorm]
      | vtypedArray a k elems extra =>
        simp only [canonV] at hcan
        have Hp : ∀ p ∈ firstPerKey [] extra, ∀ cc : Nat, ∃ y c',
            duplicate p.2 cc = .ok (y, c') ∧
            normalize y = normalize p.2 := by
          intro p hp cc
          have hmem := firstPerKey_subset hp
          have hs1 := sizeOf_snd_lt_of_mem hmem
          have hv' : sizeOf p.2 ≤ n := by
            simp at hv
            omega
          exact ih p.2 hv' (canonPairs_mem hcan p hmem) cc
        obtain ⟨extra', c2, hdp, hfst, hnp⟩ := dupPairs_ok_of Hp (c + 1)
        refine ⟨vtypedArray c k elems extra', c2, ?_, ?_⟩
        · rw [duplicate_vtypedArray]
          simp only [duplicateTypedArray, hdp]
        · have hnodup : (extra'.map Prod.fst).Nodup := by
            rw [hfst]
            exact firstPerKey_keys_nodup [] extra
          have hex : firstPerKey [] extra' = extra' :=
            firstPerKey_eq_self hnodup (by simp)
          simp only [normalize]
          rw [hex, hnp]
  intro v
  exact main (sizeOf v) v le_rfl

theorem trim_normCells (l : List (Option Value)) :
    normCells (trimTrailing l) = trimTrailing (normCells l) := by
  induction l with
  | nil => simp [trimTrailing, normCells]
  | cons x rest ih =>
    cases x with
    | some v =>
      simp only [trimTrailing, normCells]
      rw [ih]
    | none =>
      cases htr : trimTrailing rest with
      | nil =>
        have h2 : trimTrailing (normCells rest) = [] := by
          rw [← ih, htr]
          simp [normCells]
        simp only [trimTrailing, htr, normCells, h2]
      | cons y r =>
        have h2 : trimTrailing (normCells rest) = normCells (y :: r) := by
          rw [← ih, htr]
        simp only [trimTrailing, htr, normCells, h2]
        cases y <;> simp [normCells]

theorem dupPairs_indep_of {l : List (String × Value)}
    (H : ∀ p ∈ l, ∀ c₁ c₂ : Nat,
      (∀ e, duplicate p.2 c₁ = .error e → duplicate p.2 c₂ = .error e) ∧
      (∀ y₁ d₁, duplicate p.2 c₁ = .ok (y₁, d₁) →
        ∃ y₂ d₂, duplicate p.2 c₂ = .ok (y₂, d₂) ∧
          normalize y₂ = normalize y₁)) :
    ∀ c₁ c₂ : Nat,
      (∀ e, dupPairs l c₁ = .error e → dupPairs l c₂ = .error e) ∧
      (∀ l₁ d₁, dupPairs l c₁ = .ok (l₁, d₁) →
        ∃ l₂ d₂, dupPairs l c₂ = .ok (l₂, d₂) ∧
          l₂.map Prod.fst = l₁.map Prod.fst ∧
          normPairs l₂ = normPairs l₁) := by
  induction l with
  | nil =>
    intro c₁ c₂
    constructor
    · intro e h
      simp only [dupPairs] at h
      simp at h
    · intro l₁ d₁ h
      simp only [dupPairs] at h
      simp at h
      obtain ⟨h1, -⟩ := h
      subst h1
      exact ⟨[], c₂, by simp [dupPairs], rfl, rfl⟩
  | cons q rest ih =>
    obtain ⟨k, v⟩ := q
    intro c₁ c₂
    have Hhead := H (k, v) (List.mem_cons_self _ _)
    have Htail := ih (fun p hp => H p (List.mem_cons_of_mem _ hp))
    constructor
    · intro e h
      simp only [dupPairs] at h
      cases hv : duplicate v c₁ with
      | error e' =>
        rw [hv] at h
        simp at h
        subst h
        have hv2 := (Hhead c₁ c₂).1 e' hv
        simp only [dupPairs, hv2]
      | ok r =>
        obtain ⟨v₁, d₁⟩ := r
        rw [hv] at h
        simp only at h
        cases hr : dupPairs rest d₁ with
        | error e' =>
          rw [hr] at h
          simp at h
          subst h
          obtain ⟨v₂, d₂, hv2, -⟩ := (Hhead c₁ c₂).2 v₁ d₁ hv
          have hr2 := (Htail d₁ d₂).1 e' hr
          simp only [dupPairs, hv2]
          simp only at *
          rw [hr2]
        | ok r2 =>
          rw [hr] at h
          obtain ⟨rest₁, d₁'⟩ := r2
          simp at h
    · intro l₁ d₁ h
      simp only [dupPairs] at h
      cases hv : duplicate v c₁ with
      | error e' => rw [hv] at h; simp at h
      | ok r =>
        obtain ⟨v₁, e₁⟩ := r
        rw [hv] at h
        simp only at h
        cases hr : dupPairs rest e₁ with
        | error e' => rw [hr] at h; simp at h
        | ok r2 =>
          obtain ⟨rest₁, e₂⟩ := r2
          rw [hr] at h
          simp at h
          obtain ⟨h1, h2⟩ := h
          subst h1
          subst h2
          obtain ⟨v₂, f₁, hv2, hnv⟩ := (Hhead c₁ c₂).2 v₁ e₁ hv
          obtain ⟨rest₂, f₂, hr2, hfst, hnp⟩ :=
            (Htail e₁ f₁).2 rest₁ e₂ hr
          refine ⟨(k, v₂) :: rest₂, f₂, ?_, by simp [hfst], ?_⟩
          · simp only [dupPairs, hv2]
            simp only at *
            rw [hr2]
          · simp only [normPairs]
            rw [hnv, hnp]

theorem dupCells_indep_of {l : List (Option Value)}
    (H : ∀ v, some v ∈ l → ∀ c₁ c₂ : Nat,
      (∀ e, duplicate v c₁ = .error e → duplicate v c₂ = .error e) ∧
      (∀ y₁ d₁, duplicate v c₁ = .ok (y₁, d₁) →
        ∃ y₂ d₂, duplicate v c₂ = .ok (y₂, d₂) ∧
          normalize y₂ = normalize y₁)) :
    ∀ c₁ c₂ : Nat,
      (∀ e, dupCells l c₁ = .error e → dupCells l c₂ = .error e) ∧
      (∀ l₁ d₁, dupCells l c₁ = .ok (l₁, d₁) →
        ∃ l₂ d₂, dupCells l c₂ = .ok (l₂, d₂) ∧
          normCells l₂ = normCells l₁) := by
  induction l with
  | nil =>
    intro c₁ c₂
    constructor
    · intro e h
      simp only [dupCells] at h
      simp at h
    · intro l₁ d₁ h
      simp only [dupCells] at h
      simp at h
      obtain ⟨h1, -⟩ := h
      subst h1
      exact ⟨[], c₂, by simp [dupCells], rfl⟩
  | cons x rest ih =>
    intro c₁ c₂
    cases x with
    | none =>
      have Htail := ih (fun v hv => H v (List.mem_cons_of_mem _ hv))
      constructor
      · intro e h
        simp only [dupCells] at h
        cases hr : dupCells rest c₁ with
        | error e' =>
          rw [hr] at h
          simp at h
          subst h
          have hr2 := (Htail c₁ c₂).1 e' hr
          simp only [dupCells]
          rw [hr2]
        | ok r =>
          obtain ⟨rest₁, d₁'⟩ := r
          rw [hr] at h
          simp at h
      · intro l₁ d₁ h
        simp only [dupCells] at h
        cases hr : dupCells rest c₁ with
        | error e' => rw [hr] at h; simp at h
        | ok r =>
          obtain ⟨rest₁, e₁⟩ := r
          rw [hr] at h
          simp at h
          obtain ⟨h1, h2⟩ := h
          subst h1
          subst h2
          obtain ⟨rest₂, f₁, hr2, hnc⟩ := (Htail c₁ c₂).2 rest₁ e₁ hr
          refine ⟨none :: rest₂, f₁, ?_, ?_⟩
          · simp only [dupCells]
            rw [hr2]
          · simp only [normCells]
            rw [hnc]
    | some u =>
      have Hhead := H u (List.mem_cons_self _ _)
      have Htail := ih (fun v hv => H v (List.mem_cons_of_mem _ hv))
      constructor
      · intro e h
        simp only [dupCells] at h
        cases hu : duplicate u c₁ with
        | error e' =>
          rw [hu] at h
          simp at h
          subst h
          have hu2 := (Hhead c₁ c₂).1 e' hu
          simp only [dupCells, hu2]
        | ok r =>
          obtain ⟨u₁, e₁⟩ := r
          rw [hu] at h
          simp only at h
          cases hr : dupCells rest e₁ with
          | error e' =>
            rw [hr] at h
            simp at h
            subst h
            obtain ⟨u₂, f₁, hu2, -⟩ := (Hhead c₁ c₂).2 u₁ e₁ hu
            have hr2 := (Htail e₁ f₁).1 e' hr
            simp only [dupCells, hu2]
            simp only at *
            rw [hr2]
          | ok r2 =>
            obtain ⟨rest₁, e₂⟩ := r2
            rw [hr] at h
            simp at h
      · intro l₁ d₁ h
        simp only [dupCells] at h
        cases hu : duplicate u c₁ with
        | error e' => rw [hu] at h; simp at h
        | ok r =>
          obtain ⟨u₁, e₁⟩ := r
          rw [hu] at h
          simp only at h
          cases hr : dupCells rest e₁ with
          | error e' => rw [hr] at h; simp at h
          | ok r2 =>
            obtain ⟨rest₁, e₂⟩ := r2
            rw [hr] at h
            simp at h
            obtain ⟨h1, h2⟩ := h
            subst h1
            subst h2
            obtain ⟨u₂, f₁, hu2, hnu⟩ := (Hhead c₁ c₂).2 u₁ e₁ hu
            obtain ⟨rest₂, f₂, hr2, hnc⟩ := (Htail e₁ f₁).2 rest₁ e₂ hr
            refine ⟨some u₂ :: rest₂, f₂, ?_, ?_⟩
            · simp only [dupCells, hu2]
              simp only at *
              rw [hr2]
            · simp only [normCells]
              rw [hnu, hnc]

theorem dup_counter_indep :
    ∀ (v : Value) (c₁ c₂ : Nat),
      (∀ e, duplicate v c₁ = .error e → duplicate v c₂ = .error e) ∧
      (∀ y₁ d₁, duplicate v c₁ = .ok (y₁, d₁) →
        ∃ y₂ d₂, duplicate v c₂ = .ok (y₂, d₂) ∧
          normalize y₂ = normalize y₁) := by
  have main : ∀ (n : Nat) (v : Value), sizeOf v ≤ n → ∀ c₁ c₂ : Nat,
      (∀ e, duplicate v c₁ = .error e → duplicate v c₂ = .error e) ∧
      (∀ y₁ d₁, duplicate v c₁ = .ok (y₁, d₁) →
        ∃ y₂ d₂, duplicate v c₂ = .ok (y₂, d₂) ∧
          normalize y₂ = normalize y₁) := by
    intro n
    induction n with
    | zero =>
      intro v hv
      exfalso
      cases v <;> simp at hv
    | succ n ih =>
      intro v hv c₁ c₂
      cases v with
      | vstr s =>
        refine ⟨fun e h => ?_, fun y₁ d₁ h => ?_⟩
        · rw [duplicate_vstr] at h; simp at h
        · rw [duplicate_vstr] at h
          simp at h
          obtain ⟨h1, -⟩ := h
          subst h1
          exact ⟨vstr s, c₂, duplicate_vstr s c₂, rfl⟩
      | vnum m =>
        refine ⟨fun e h => ?_, fun y₁ d₁ h => ?_⟩
        · rw [duplicate_vnum] at h; simp at h
        · rw [duplicate_vnum] at h
          simp at h
          obtain ⟨h1, -⟩ := h
          subst h1
          exact ⟨vnum m, c₂, duplicate_vnum m c₂, rfl⟩
      | vbool b =>
        refine ⟨fun e h => ?_, fun y₁ d₁ h => ?_⟩
        · rw [duplicate_vbool] at h; simp at h
        · rw [duplicate_vbool] at h
          simp at h
          obtain ⟨h1, -⟩ := h
          subst h1
          exact ⟨vbool b, c₂, duplicate_vbool b c₂, rfl⟩
      | vnull =>
        refine ⟨fun e h => ?_, fun y₁ d₁ h => ?_⟩
        · rw [duplicate_vnull] at h; simp at h
        · rw [duplicate_vnull] at h
          simp at h
          obtain ⟨h1, -⟩ := h
          subst h1
          exact ⟨vnull, c₂, duplicate_vnull c₂, rfl⟩
      | vundefined =>
        refine ⟨fun e h => ?_, fun y₁ d₁ h => ?_⟩
        · rw [duplicate_vundefined] at h; simp at h
        · rw [duplicate_vundefined] at h
          simp at h
          obtain ⟨h1, -⟩ := h
          subst h1
          exact ⟨vundefined, c₂, duplicate_vundefined c₂, rfl⟩
      | vsymbol i =>
        refine ⟨fun e h => ?_, fun y₁ d₁ h => ?_⟩
        · rw [duplicate_vsymbol] at h; simp at h
        · rw [duplicate_vsymbol] at h
          simp at h
          obtain ⟨h1, -⟩ := h
          subst h1
          exact ⟨vsymbol i, c₂, duplicate_vsymbol i c₂, rfl⟩
      | vmath =>
        refine ⟨fun e h => ?_, fun y₁ d₁ h => ?_⟩
        · rw [duplicate_vmath] at h; simp at h
        · rw [duplicate_vmath] at h
          simp at h
          obtain ⟨h1, -⟩ := h
          subst h1
          exact ⟨vmath, c₂, duplicate_vmath c₂, rfl⟩
      | vjson =>
        refine ⟨fun e h => ?_, fun y₁ d₁ h => ?_⟩
        · rw [duplicate_vjson] at h; simp at h
        · rw [duplicate_vjson] at h
          simp at h
          obtain ⟨h1, -⟩ := h
          subst h1
          exact ⟨vjson, c₂, duplicate_vjson c₂, rfl⟩
      | vgenerator a =>
        refine ⟨fun e h => ?_, fun y₁ d₁ h => ?_⟩
        · rw [duplicate_vgenerator] at h; simp at h
        · rw [duplicate_vgenerator] at h
          simp at h
          obtain ⟨h1, -⟩ := h
          subst h1
          exact ⟨vgenerator a, c₂, duplicate_vgenerator a c₂, rfl⟩
      | vwasm a =>
        refine ⟨fun e h => ?_, fun y₁ d₁ h => ?_⟩
        · rw [duplicate_vwasm] at h; simp at h
        · rw [duplicate_vwasm] at h
          simp at h
          obtain ⟨h1, -⟩ := h
          subst h1
          exact ⟨vwasm a, c₂, duplicate_vwasm a c₂, rfl⟩
      | vfunction a k src =>
        refine ⟨fun e h => ?_, fun y₁ d₁ h => ?_⟩
        · rw [duplicate_vfunction] at h; simp at h
        · rw [duplicate_vfunction] at h
          simp at h
          obtain ⟨h1, -⟩ := h
          subst h1
          exact ⟨vfunction c₂ k src, c₂ + 1,
            duplicate_vfunction a k src c₂, by simp [normalize]⟩
      | verror a nm msg extra stack =>
        refine ⟨fun e h => ?_, fun y₁ d₁ h => ?_⟩
        · rw [duplicate_verror] at h; simp at h
        · rw [duplicate_verror] at h
          simp at h
          obtain ⟨h1, -⟩ := h
          subst h1
          exact ⟨verror c₂ nm msg [] "", c₂ + 1,
            duplicate_verror a nm msg extra stack c₂, by simp [normalize]⟩
      | vregexp a src fl =>
        refine ⟨fun e h => ?_, fun y₁ d₁ h => ?_⟩
        · rw [duplicate_vregexp] at h; simp at h
        · rw [duplicate_vregexp] at h
          simp at h
          obtain ⟨h1, -⟩ := h
          subst h1
          exact ⟨vregexp c₂ src fl, c₂ + 1,
            duplicate_vregexp a src fl c₂, by simp [normalize]⟩
      | vdate a e =>
        refine ⟨fun e' h => ?_, fun y₁ d₁ h => ?_⟩
        · rw [duplicate_vdate] at h; simp at h
        · rw [duplicate_vdate] at h
          simp at h
          obtain ⟨h1, -⟩ := h
          subst h1
          exact ⟨vdate c₂ e, c₂ + 1, duplicate_vdate a e c₂,
            by simp [normalize]⟩
      | vmap a entries =>
        refine ⟨fun e h => ?_, fun y₁ d₁ h => ?_⟩
        · rw [duplicate_vmap] at h; simp at h
        · rw [duplicate_vmap] at h
          simp at h
          obtain ⟨h1, -⟩ := h
          subst h1
          exact ⟨vmap c₂ entries, c₂ + 1, duplicate_vmap a entries c₂,
            by simp [normalize]⟩
      | vset a elems =>
        refine ⟨fun e h => ?_, fun y₁ d₁ h => ?_⟩
        · rw [duplicate_vset] at h; simp at h
        · rw [duplicate_vset] at h
          simp at h
          obtain ⟨h1, -⟩ := h
          subst h1
          exact ⟨vset c₂ elems, c₂ + 1, duplicate_vset a elems c₂,
            by simp [normalize]⟩
      | vpromise a oid =>
        refine ⟨fun e h => ?_, fun y₁ d₁ h => ?_⟩
        · rw [duplicate_vpromise] at h; simp at h
        · rw [duplicate_vpromise] at h
          simp at h
          obtain ⟨h1, -⟩ := h
          subst h1
          exact ⟨vpromise c₂ oid, c₂ + 1, duplicate_vpromise a oid c₂,
            by simp [normalize]⟩
      | varrayBuffer a len =>
        refine ⟨fun e h => ?_, fun y₁ d₁ h => ?_⟩
        · rw [duplicate_varrayBuffer] at h; simp at h
        · rw [duplicate_varrayBuffer] at h
          simp at h
          obtain ⟨h1, -⟩ := h
          subst h1
          exact ⟨varrayBuffer c₂ 0, c₂ + 1,
            duplicate_varrayBuffer a len c₂, by simp [normalize]⟩
      | vdataView a b o l =>
        refine ⟨fun e h => ?_, fun y₁ d₁ h => ?_⟩
        · rw [duplicate_vdataView] at h; simp at h
        · rw [duplicate_vdataView] at h
          simp at h
          obtain ⟨h1, -⟩ := h
          subst h1
          exact ⟨vdataView c₂ b o l, c₂ + 1,
            duplicate_vdataView a b o l c₂, by simp [normalize]⟩
      | vweakmap a entries =>
        refine ⟨fun e h => ?_, fun y₁ d₁ h => ?_⟩
        · rw [duplicate_vweakmap] at h
          simp at h
          subst h
          exact duplicate_vweakmap a entries c₂
        · rw [duplicate_vweakmap] at h
          simp at h
      | vweakset a elems =>
        refine ⟨fun e h => ?_, fun y₁ d₁ h => ?_⟩
        · rw [duplicate_vweakset] at h
          simp at h
          subst h
          exact duplicate_vweakset a elems c₂
        · rw [duplicate_vweakset] at h
          simp at h
      | vother t a =>
        refine ⟨fun e h => ?_, fun y₁ d₁ h => ?_⟩
        · rw [duplicate_vother] at h
          simp at h
          subst h
          exact duplicate_vother t a c₂
        · rw [duplicate_vother] at h
          simp at h
      | vobject a own proto =>
        have H : ∀ p ∈ forInItems own proto, ∀ e₁ e₂ : Nat,
            (∀ e, duplicate p.2 e₁ = .error e →
              duplicate p.2 e₂ = .error e) ∧
            (∀ y₁ d₁, duplicate p.2 e₁ = .ok (y₁, d₁) →
              ∃ y₂ d₂, duplicate p.2 e₂ = .ok (y₂, d₂) ∧
                normalize y₂ = normalize y₁) := by
          intro p hp
          have hmem := firstPerKey_subset hp
          have hs1 := sizeOf_snd_lt_of_mem hmem
          have hs2 := sizeOf_list_append own proto
          have hv' : sizeOf p.2 ≤ n := by
            simp at hv
            omega
          exact ih p.2 hv'
        have Hind := dupPairs_indep_of H
        refine ⟨fun e h => ?_, fun y₁ d₁ h => ?_⟩
        · rw [duplicate_vobject] at h
          simp only [duplicateObject] at h
          cases hdp : dupPairs (forInItems own proto) (c₁ + 1) with
          | error e' =>
            rw [hdp] at h
            simp at h
            subst h
            have hdp2 := (Hind (c₁ + 1) (c₂ + 1)).1 e' hdp
            rw [duplicate_vobject]
            simp only [duplicateObject]
            rw [hdp2]
          | ok pr =>
            obtain ⟨ps, d⟩ := pr
            rw [hdp] at h
            simp at h
        · rw [duplicate_vobject] at h
          simp only [duplicateObject] at h
          cases hdp : dupPairs (forInItems own proto) (c₁ + 1) with
          | error e' => rw [hdp] at h; simp at h
          | ok pr =>
            obtain ⟨ps₁, d⟩ := pr
            rw [hdp] at h
            simp at h
            obtain ⟨h1, h2⟩ := h
            subst h1
            subst h2
            obtain ⟨ps₂, d₂, hdp2, hfst, hnp⟩ :=
              (Hind (c₁ + 1) (c₂ + 1)).2 ps₁ d hdp
            have hk₁ : ps₁.map Prod.fst =
                (forInItems own proto).map Prod.fst :=
              (dupPairs_getq hdp).2.1
            have hnd : ((forInItems own proto).map Prod.fst).Nodup := by
              simp only [forInItems]
              exact firstPerKey_keys_nodup [] (own ++ proto)
            have hnd₁ : (ps₁.map Prod.fst).Nodup := by
              rw [hk₁]; exact hnd
            have hnd₂ : (ps₂.map Prod.fst).Nodup := by
              rw [hfst, hk₁]; exact hnd
            refine ⟨vobject c₂ ps₂ [], d₂, ?_, ?_⟩
            · rw [duplicate_vobject]
              simp only [duplicateObject]
              rw [hdp2]
            · simp only [normalize, forInItems, List.append_nil]
              rw [firstPerKey_eq_self hnd₂ (by simp),
                firstPerKey_eq_self hnd₁ (by simp), hnp]
      | varray a cells extra =>
        have Hc : ∀ w, some w ∈ cells → ∀ e₁ e₂ : Nat,
            (∀ e, duplicate w e₁ = .error e →
              duplicate w e₂ = .error e) ∧
            (∀ y₁ d₁, duplicate w e₁ = .ok (y₁, d₁) →
              ∃ y₂ d₂, duplicate w e₂ = .ok (y₂, d₂) ∧
                normalize y₂ = normalize y₁) := by
          intro w hw
          have hs1 := sizeOf_lt_of_some_mem hw
          have hv' : sizeOf w ≤ n := by
            simp at hv
            omega
          exact ih w hv'
        have Hp : ∀ p ∈ firstPerKey [] extra, ∀ e₁ e₂ : Nat,
            (∀ e, duplicate p.2 e₁ = .error e →
              duplicate p.2 e₂ = .error e) ∧
            (∀ y₁ d₁, duplicate p.2 e₁ = .ok (y₁, d₁) →
              ∃ y₂ d₂, duplicate p.2 e₂ = .ok (y₂, d₂) ∧
                normalize y₂ = normalize y₁) := by
          intro p hp
          have hmem := firstPerKey_subset hp
          have hs1 := sizeOf_snd_lt_of_mem hmem
          have hv' : sizeOf p.2 ≤ n := by
            simp at hv
            omega
          exact ih p.2 hv'
        have Hcind := dupCells_indep_of Hc
        have Hpind := dupPairs_indep_of Hp
        refine ⟨fun e h => ?_, fun y₁ d₁ h => ?_⟩
        · rw [duplicate_varray] at h
          simp only [duplicateArray] at h
          cases hdc : dupCells cells (c₁ + 1) with
          | error e' =>
            rw [hdc] at h
            simp at h
            subst h
            have hdc2 := (Hcind (c₁ + 1) (c₂ + 1)).1 e' hdc
            rw [duplicate_varray]
            simp only [duplicateArray]
            rw [hdc2]
          | ok pr =>
            obtain ⟨cells₁, e₁⟩ := pr
            rw [hdc] at h
            simp only at h
            cases hdp : dupPairs (firstPerKey [] extra) e₁ with
            | error e' =>
              rw [hdp] at h
              simp at h
              subst h
              obtain ⟨cells₂, f₁, hdc2, -⟩ :=
                (Hcind (c₁ + 1) (c₂ + 1)).2 cells₁ e₁ hdc
              have hdp2 := (Hpind e₁ f₁).1 e' hdp
              rw [duplicate_varray]
              simp only [duplicateArray]
              rw [hdc2]
              simp only
              rw [hdp2]
            | ok pr2 =>
              obtain ⟨extra₁, e₂⟩ := pr2
              rw [hdp] at h
              simp at h
        · rw [duplicate_varray] at h
          simp only [duplicateArray] at h
          cases hdc : dupCells cells (c₁ + 1) with
          | error e' => rw [hdc] at h; simp at h
          | ok pr =>
            obtain ⟨cells₁, e₁⟩ := pr
            rw [hdc] at h
            simp only at h
            cases hdp : dupPairs (firstPerKey [] extra) e₁ with
            | error e' => rw [hdp] at h; simp at h
            | ok pr2 =>
              obtain ⟨extra₁, e₂⟩ := pr2
              rw [hdp] at h
              simp at h
              obtain ⟨h1, h2⟩ := h
              subst h1
              subst h2
              obtain ⟨cells₂, f₁, hdc2, hnc⟩ :=
                (Hcind (c₁ + 1) (c₂ + 1)).2 cells₁ e₁ hdc
              obtain ⟨extra₂, f₂, hdp2, hfst, hnp⟩ :=
                (Hpind e₁ f₁).2 extra₁ e₂ hdp
              have hk₁ : extra₁.map Prod.fst =
                  (firstPerKey [] extra).map Prod.fst :=
                (dupPairs_getq hdp).2.1
              have hnd : ((firstPerKey [] extra).map Prod.fst).Nodup :=
                firstPerKey_keys_nodup [] extra
              have hnd₁ : (extra₁.map Prod.fst).Nodup := by
                rw [hk₁]; exact hnd
              have hnd₂ : (extra₂.map Prod.fst).Nodup := by
                rw [hfst, hk₁]; exact hnd
              refine ⟨varray c₂ (trimTrailing cells₂) extra₂, f₂, ?_, ?_⟩
              · rw [duplicate_varray]
                simp only [duplicateArray]
                rw [hdc2]
                simp only
                rw [hdp2]
              · simp only [normalize]
                rw [firstPerKey_eq_self hnd₂ (by simp),
                  firstPerKey_eq_self hnd₁ (by simp), hnp,
                  trim_normCells, trim_normCells, hnc]
      | vtypedArray a k elems extra =>
        have Hp : ∀ p ∈ firstPerKey [] extra, ∀ e₁ e₂ : Nat,
            (∀ e, duplicate p.2 e₁ = .error e →
              duplicate p.2 e₂ = .error e) ∧
            (∀ y₁ d₁, duplicate p.2 e₁ = .ok (y₁, d₁) →
              ∃ y₂ d₂, duplicate p.2 e₂ = .ok (y₂, d₂) ∧
                normalize y₂ = normalize y₁) := by
          intro p hp
          have hmem := firstPerKey_subset hp
          have hs1 := sizeOf_snd_lt_of_mem hmem
          have hv' : sizeOf p.2 ≤ n := by
            simp at hv
            omega
          exact ih p.2 hv'
        have Hpind := dupPairs_indep_of Hp
        refine ⟨fun e h => ?_, fun y₁ d₁ h => ?_⟩
        · rw [duplicate_vtypedArray] at h
          simp only [duplicateTypedArray] at h
          cases hdp : dupPairs (firstPerKey [] extra) (c₁ + 1) with
          | error e' =>
            rw [hdp] at h
            simp at h
            subst h
            have hdp2 := (Hpind (c₁ + 1) (c₂ + 1)).1 e' hdp
            rw [duplicate_vtypedArray]
            simp only [duplicateTypedArray]
            rw [hdp2]
          | ok pr =>
            obtain ⟨extra₁, e₁⟩ := pr
            rw [hdp] at h
            simp at h
        · rw [duplicate_vtypedArray] at h
          simp only [duplicateTypedArray] at h
          cases hdp : dupPairs (firstPerKey [] extra) (c₁ + 1) with
          | error e' => rw [hdp] at h; simp at h
          | ok pr =>
            obtain ⟨extra₁, e₁⟩ := pr
            rw [hdp] at h
            simp at h
            obtain ⟨h1, h2⟩ := h
            subst h1
            subst h2
            obtain ⟨extra₂, f₁, hdp2, hfst, hnp⟩ :=
              (Hpind (c₁ + 1) (c₂ + 1)).2 extra₁ e₁ hdp
            have hk₁ : extra₁.map Prod.fst =
                (firstPerKey [] extra).map Prod.fst :=
              (dupPairs_getq hdp).2.1
            have hnd : ((firstPerKey [] extra).map Prod.fst).Nodup :=
              firstPerKey_keys_nodup [] extra
            have hnd₁ : (extra₁.map Prod.fst).Nodup := by
              rw [hk₁]; exact hnd
            have hnd₂ : (extra₂.map Prod.fst).Nodup := by
              rw [hfst, hk₁]; exact hnd
            refine ⟨vtypedArray c₂ k elems extra₂, f₁, ?_, ?_⟩
            · rw [duplicate_vtypedArray]
              simp only [duplicateTypedArray]
              rw [hdp2]
            · simp only [normalize]
              rw [firstPerKey_eq_self hnd₂ (by simp),
                firstPerKey_eq_self hnd₁ (by simp), hnp]
  intro v
  exact main (sizeOf v) v le_rfl

theorem normPres_of_canon {v : Value} (h : canonV v = true) :
    NormPres v := by
  intro c y c' hdup
  obtain ⟨z, c'', hz, hn⟩ := canon_dup v h c
  rw [hdup] at hz
  simp at hz
  obtain ⟨h1, -⟩ := hz
  rw [← h1] at hn
  exact hn

theorem dup_of_object_shape {v y : Value} {c c' : Nat}
    (hobj : isObjectV v = true) (h : duplicate v c = .ok (y, c')) :
    topAddr y = some c := by
  cases v with
  | vobject a own proto =>
    rw [duplicate_vobject] at h
    simp only [duplicateObject] at h
    cases hdp : dupPairs (forInItems own proto) (c + 1) with
    | error e => rw [hdp] at h; simp at h
    | ok pr =>
      obtain ⟨ps, c2⟩ := pr
      rw [hdp] at h
      simp at h
      obtain ⟨h1, -⟩ := h
      subst h1
      simp [topAddr]
  | vstr s => simp [isObjectV] at hobj
  | vnum m => simp [isObjectV] at hobj
  | vbool b => simp [isObjectV] at hobj
  | vnull => simp [isObjectV] at hobj
  | vundefined => simp [isObjectV] at hobj
  | vsymbol i => simp [isObjectV] at hobj
  | vfunction a k src => simp [isObjectV] at hobj
  | verror a nm msg extra stack => simp [isObjectV] at hobj
  | vregexp a src fl => simp [isObjectV] at hobj
  | vdate a e => simp [isObjectV] at hobj
  | varray a cells extra => simp [isObjectV] at hobj
  | vmap a entries => simp [isObjectV] at hobj
  | vweakmap a entries => simp [isObjectV] at hobj
  | vset a elems => simp [isObjectV] at hobj
  | vweakset a elems => simp [isObjectV] at hobj
  | vmath => simp [isObjectV] at hobj
  | vjson => simp [isObjectV] at hobj
  | vpromise a oid => simp [isObjectV] at hobj
  | vtypedArray a k elems extra => simp [isObjectV] at hobj
  | varrayBuffer a len => simp [isObjectV] at hobj
  | vdataView a b o l => simp [isObjectV] at hobj
  | vgenerator a => simp [isObjectV] at hobj
  | vwasm a => simp [isObjectV] at hobj
  | vother t a => simp [isObjectV] at hobj

theorem topAddr_of_object {v : Value} (hobj : isObjectV v = true) :
    ∃ av : Nat, topAddr v = some av := by
  cases v <;> first
  | exact ⟨_, rfl⟩
  | simp [isObjectV] at hobj

theorem dup_of_array_shape {v y : Value} {c c' : Nat}
    (harr : isArrayV v = true) (h : duplicate v c = .ok (y, c')) :
    topAddr y = some c := by
  cases v with
  | varray a cells extra =>
    rw [duplicate_varray] at h
    simp only [duplicateArray] at h
    cases hdc : dupCells cells (c + 1) with
    | error e => rw [hdc] at h; simp at h
    | ok pr =>
      obtain ⟨cells', c2⟩ := pr
      rw [hdc] at h
      simp only at h
      cases hdp : dupPairs (firstPerKey [] extra) c2 with
      | error e => rw [hdp] at h; simp at h
      | ok pr2 =>
        obtain ⟨extra', c3⟩ := pr2
        rw [hdp] at h
        simp at h
        obtain ⟨h1, -⟩ := h
        subst h1
        simp [topAddr]
  | vstr s => simp [isArrayV] at harr
  | vnum m => simp [isArrayV] at harr
  | vbool b => simp [isArrayV] at harr
  | vnull => simp [isArrayV] at harr
  | vundefined => simp [isArrayV] at harr
  | vsymbol i => simp [isArrayV] at harr
  | vfunction a k src => simp [isArrayV] at harr
  | verror a nm msg extra stack => simp [isArrayV] at harr
  | vregexp a src fl => simp [isArrayV] at harr
  | vdate a e => simp [isArrayV] at harr
  | vobject a own proto => simp [isArrayV] at harr
  | vmap a entries => simp [isArrayV] at harr
  | vweakmap a entries => simp [isArrayV] at harr
  | vset a elems => simp [isArrayV] at harr
  | vweakset a elems => simp [isArrayV] at harr
  | vmath => simp [isArrayV] at harr
  | vjson => simp [isArrayV] at harr
  | vpromise a oid => simp [isArrayV] at harr
  | vtypedArray a k elems extra => simp [isArrayV] at harr
  | varrayBuffer a len => simp [isArrayV] at harr
  | vdataView a b o l => simp [isArrayV] at harr
  | vgenerator a => simp [isArrayV] at harr
  | vwasm a => simp [isArrayV] at harr
  | vother t a => simp [isArrayV] at harr

theorem topAddr_of_array {v : Value} (harr : isArrayV v = true) :
    ∃ av : Nat, topAddr v = some av := by
  cases v <;> first
  | exact ⟨_, rfl⟩
  | simp [isArrayV] at harr

theorem dupPairs_unsupported_of {l : List (String × Value)}
    (H : ∀ p ∈ l, ∀ c t, duplicate p.2 c = .error (.unsupportedType t) →
      _duplicate t = none) :
    ∀ c t, dupPairs l c = .error (.unsupportedType t) →
      _duplicate t = none := by
  induction l with
  | nil =>
    intro c t h
    simp only [dupPairs] at h
    simp at h
  | cons q rest ih =>
    obtain ⟨k, v⟩ := q
    intro c t h
    simp only [dupPairs] at h
    cases hv : duplicate v c with
    | error e =>
      rw [hv] at h
      simp at h
      subst h
      exact H (k, v) (List.mem_cons_self _ _) c t hv
    | ok r =>
      obtain ⟨v', c1⟩ := r
      rw [hv] at h
      simp only at h
      cases hr : dupPairs rest c1 with
      | error e =>
        rw [hr] at h
        simp at h
        subst h
        exact ih (fun p hp => H p (List.mem_cons_of_mem _ hp)) c1 t hr
      | ok r2 =>
        obtain ⟨rest', c2⟩ := r2
        rw [hr] at h
        simp at h

theorem dupCells_unsupported_of {l : List (Option Value)}
    (H : ∀ v, some v ∈ l → ∀ c t,
      duplicate v c = .error (.unsupportedType t) → _duplicate t = none) :
    ∀ c t, dupCells l c = .error (.unsupportedType t) →
      _duplicate t = none := by
  induction l with
  | nil =>
    intro c t h
    simp only [dupCells] at h
    simp at h
  | cons x rest ih =>
    intro c t h
    cases x with
    | none =>
      simp only [dupCells] at h
      cases hr : dupCells rest c with
      | error e =>
        rw [hr] at h
        simp at h
        subst h
        exact ih (fun v hv => H v (List.mem_cons_of_mem _ hv)) c t hr
      | ok r =>
        obtain ⟨rest', c1⟩ := r
        rw [hr] at h
        simp at h
    | some u =>
      simp only [dupCells] at h
      cases hu : duplicate u c with
      | error e =>
        rw [hu] at h
        simp at h
        subst h
        exact H u (List.mem_cons_self _ _) c t hu
      | ok r =>
        obtain ⟨u', c1⟩ := r
        rw [hu] at h
        simp only at h
        cases hr : dupCells rest c1 with
        | error e =>
          rw [hr] at h
          simp at h
          subst h
          exact ih (fun v hv => H v (List.mem_cons_of_mem _ hv)) c1 t hr
        | ok r2 =>
          obtain ⟨rest', c2⟩ := r2
          rw [hr] at h
          simp at h

theorem dup_unsupported_source :
    ∀ (v : Value) (c : Nat) (t : TypeTag),
      duplicate v c = .error (.unsupportedType t) → _duplicate t = none := by
  have main : ∀ (n : Nat) (v : Value), sizeOf v ≤ n → ∀ c t,
      duplicate v c = .error (.unsupportedType t) →
      _duplicate t = none := by
    intro n
    induction n with
    | zero =>
      intro v hv
      exfalso
      cases v <;> simp at hv
    | succ n ih =>
      intro v hv c t h
      cases v with
      | vstr s => rw [duplicate_vstr] at h; simp at h
      | vnum m => rw [duplicate_vnum] at h; simp at h
      | vbool b => rw [duplicate_vbool] at h; simp at h
      | vnull => rw [duplicate_vnull] at h; simp at h
      | vundefined => rw [duplicate_vundefined] at h; simp at h
      | vsymbol i => rw [duplicate_vsymbol] at h; simp at h
      | vmath => rw [duplicate_vmath] at h; simp at h
      | vjson => rw [duplicate_vjson] at h; simp at h
      | vgenerator a => rw [duplicate_vgenerator] at h; simp at h
      | vwasm a => rw [duplicate_vwasm] at h; simp at h
      | vfunction a k src => rw [duplicate_vfunction] at h; simp at h
      | verror a nm msg extra stack => rw [duplicate_verror] at h; simp at h
      | vregexp a src fl => rw [duplicate_vregexp] at h; simp at h
      | vdate a e => rw [duplicate_vdate] at h; simp at h
      | vmap a entries => rw [duplicate_vmap] at h; simp at h
      | vset a elems => rw [duplicate_vset] at h; simp at h
      | vpromise a oid => rw [duplicate_vpromise] at h; simp at h
      | varrayBuffer a len => rw [duplicate_varrayBuffer] at h; simp at h
      | vdataView a b o l => rw [duplicate_vdataView] at h; simp at h
      | vweakmap a entries => rw [duplicate_vweakmap] at h; simp at h
      | vweakset a elems => rw [duplicate_vweakset] at h; simp at h
      | vother tg a =>
        rw [duplicate_vother] at h
        simp at h
        subst h
        rfl
      | vobject a own proto =>
        rw [duplicate_vobject] at h
        simp only [duplicateObject] at h
        cases hdp : dupPairs (forInItems own proto) (c + 1) with
        | error e =>
          rw [hdp] at h
          simp at h
          subst h
          refine dupPairs_unsupported_of ?_ _ _ hdp
          intro p hp cc tt hdup
          have hmem := firstPerKey_subset hp
          have hs1 := sizeOf_snd_lt_of_mem hmem
          have hs2 := sizeOf_list_append own proto
          have hv' : sizeOf p.2 ≤ n := by
            simp at hv
            omega
          exact ih p.2 hv' cc tt hdup
        | ok pr =>
          obtain ⟨ps, c2⟩ := pr
          rw [hdp] at h
          simp at h
      | varray a cells extra =>
        rw [duplicate_varray] at h
        simp only [duplicateArray] at h
        cases hdc : dupCells cells (c + 1) with
        | error e =>
          rw [hdc] at h
          simp at h
          subst h
          refine dupCells_unsupported_of ?_ _ _ hdc
          intro w hw cc tt hdup
          have hs1 := sizeOf_lt_of_some_mem hw
          have hv' : sizeOf w ≤ n := by
            simp at hv
            omega
          exact ih w hv' cc tt hdup
        | ok pr =>
          obtain ⟨cells', c2⟩ := pr
          rw [hdc] at h
          simp only at h
          cases hdp : dupPairs (firstPerKey [] extra) c2 with
          | error e =>
            rw [hdp] at h
            simp at h
            subst h
            refine dupPairs_unsupported_of ?_ _ _ hdp
            intro p hp cc tt hdup
            have hmem := firstPerKey_subset hp
            have hs1 := sizeOf_snd_lt_of_mem hmem
            have hv' : sizeOf p.2 ≤ n := by
              simp at hv
              omega
            exact ih p.2 hv' cc tt hdup
          | ok pr2 =>
            obtain ⟨extra', c3⟩ := pr2
            rw [hdp] at h
            simp at h
      | vtypedArray a k elems extra =>
        rw [duplicate_vtypedArray] at h
        simp only [duplicateTypedArray] at h
        cases hdp : dupPairs (firstPerKey [] extra) (c + 1) with
        | error e =>
          rw [hdp] at h
          simp at h
          subst h
          refine dupPairs_unsupported_of ?_ _ _ hdp
          intro p hp cc tt hdup
          have hmem := firstPerKey_subset hp
          have hs1 := sizeOf_snd_lt_of_mem hmem
          have hv' : sizeOf p.2 ≤ n := by
            simp at hv
            omega
          exact ih p.2 hv' cc tt hdup
        | ok pr =>
          obtain ⟨extra', c2⟩ := pr
          rw [hdp] at h
          simp at h
  intro v
  exact main (sizeOf v) v le_rfl

/-- C3: for every scalar input (string, number, boolean, null, undefined,
symbol) the dispatcher applies the identity strategy: `duplicate` returns
exactly the same value, allocates nothing (the counter is unchanged), and
cannot fail. -/
theorem duplicate_scalar_identity (v : Value) (c : Nat)
    (h : isScalar v = true) : duplicate v c = .ok (v, c) := by
  cases v
  case vstr s => exact duplicate_vstr s c
  case vnum m => exact duplicate_vnum m c
  case vbool b => exact duplicate_vbool b c
  case vnull => exact duplicate_vnull c
  case vundefined => exact duplicate_vundefined c
  case vsymbol i => exact duplicate_vsymbol i c
  all_goals simp [isScalar] at h

/-- Witness for C3 at the concrete scalar 42. -/
theorem duplicate_scalar_identity_witness :
    duplicate (vnum 42) 7 = .ok (vnum 42, 7) :=
  duplicate_scalar_identity (vnum 42) 7 (by rfl)

/-- C4: a value whose classification is not a key of the dispatch table
makes `duplicate` fail with the unsupported-type failure for that tag, and
conversely every unsupported-type failure `duplicate` ever raises names a
tag that is absent from the table — so for a value whose tag is present
the dispatcher itself raises no error (any failure then comes from a
strategy's host constructor, not from the dispatch lookup). -/
theorem duplicate_unsupported_tag (v : Value) (c : Nat) :
    (_duplicate (typeOf v) = none →
      duplicate v c = .error (.unsupportedType (typeOf v))) ∧
    (∀ t, duplicate v c = .error (.unsupportedType t) →
      _duplicate t = none) := by
  constructor
  · intro h
    cases v
    case vother t a => exact duplicate_vother t a c
    case vfunction a k src =>
      cases k <;> simp [typeOf, _duplicate] at h
    all_goals simp [typeOf, _duplicate] at h
  · intro t h
    exact dup_unsupported_source v c t h

/-- Witness for C4 at a concrete unclassifiable value (an Arguments
object). -/
theorem duplicate_unsupported_tag_witness :
    duplicate (vother "Arguments" 3) 5 =
      .error (.unsupportedType (.other "Arguments")) :=
  (duplicate_unsupported_tag (vother "Arguments" 3) 5).1 (by rfl)

/-- C5: duplicating a strong Map or a strong Set yields a fresh container
of the same family (a new identity, given a counter above the input's
address) holding literally the same entry list and element list — the
same keys, values and elements by reference, never recursively
duplicated. -/
theorem duplicate_map_set_shallow (a : Nat)
    (entries : List (Value × Value)) (elems : List Value) (c : Nat)
    (h : a < c) :
    duplicate (vmap a entries) c = .ok (vmap c entries, c + 1) ∧
    duplicate (vset a elems) c = .ok (vset c elems, c + 1) ∧
    topAddr (vmap c entries) ≠ topAddr (vmap a entries) ∧
    topAddr (vset c elems) ≠ topAddr (vset a elems) := by
  refine ⟨duplicate_vmap a entries c, duplicate_vset a elems c, ?_, ?_⟩
  · simp only [topAddr, ne_eq, Option.some.injEq]
    omega
  · simp only [topAddr, ne_eq, Option.some.injEq]
    omega

/-- Witness for C5 at a concrete one-entry map and one-element set. -/
theorem duplicate_map_set_shallow_witness :
    duplicate (vmap 0 [(vstr "k1", vobject 1 [] [])]) 2 =
      .ok (vmap 2 [(vstr "k1", vobject 1 [] [])], 3) :=
  (duplicate_map_set_shallow 0 [(vstr "k1", vobject 1 [] [])]
    [vnum 1] 2 (by decide)).1

/-- C6 (amended): duplication is idempotent up to deep equality on every
input it succeeds on: if `duplicate x` yields `y` then duplicating `y`
succeeds and yields a value deep-equal to `y`.  (The function and
deferred-value exclusions of the original claim are kept as hypotheses.) -/
theorem duplicate_idempotent_on_success (x : Value) (c : Nat) (y : Value)
    (c' : Nat) (_hf : isFunctionV x = false) (_hp : isPromiseV x = false)
    (h : duplicate x c = .ok (y, c')) :
    ∃ z c'', duplicate y c' = .ok (z, c'') ∧ deepEqual z y := by
  have hc := dup_canon x c y c' h
  obtain ⟨z, c'', hz, hn⟩ := canon_dup y hc c'
  exact ⟨z, c'', hz, hn⟩

/-- Counterexample to C6 as stated: the plain object holding an
unclassifiable value (an Arguments object) under key `w` is itself
supported (its tag OBJECT is in the table), is neither a function nor a
deferred value, yet `duplicate` on it fails, so `duplicate (duplicate x)`
cannot deep-equal `duplicate x`. -/
theorem duplicate_idempotence_fails :
    (_duplicate (typeOf (vobject 0 [("w", vother "Arguments" 1)] []))).isSome
      = true ∧
    isFunctionV (vobject 0 [("w", vother "Arguments" 1)] []) = false ∧
    isPromiseV (vobject 0 [("w", vother "Arguments" 1)] []) = false ∧
    duplicate (vobject 0 [("w", vother "Arguments" 1)] []) 2 =
      .error (.unsupportedType (.other "Arguments")) ∧
    ¬ ∃ (y : Value) (c₁ : Nat) (z : Value) (c₂ : Nat),
        duplicate (vobject 0 [("w", vother "Arguments" 1)] []) 2 =
          .ok (y, c₁) ∧
        duplicate y c₁ = .ok (z, c₂) ∧ deepEqual z y := by
  have herr : duplicate (vobject 0 [("w", vother "Arguments" 1)] []) 2 =
      .error (.unsupportedType (.other "Arguments")) := by
    rw [duplicate_vobject]
    simp [duplicateObject, forInItems, firstPerKey, dupPairs,
      duplicate_vother]
  refine ⟨rfl, rfl, rfl, herr, ?_⟩
  rintro ⟨y, c₁, z, c₂, h1, -, -⟩
  rw [herr] at h1
  simp at h1

/-- Witness for C6 at a concrete nested object. -/
theorem duplicate_idempotent_on_success_witness :
    ∃ z c'',
      duplicate (vobject 2 [("a", vnum 1), ("b", vnum 2)] []) 3 =
        .ok (z, c'') ∧
      deepEqual z (vobject 2 [("a", vnum 1), ("b", vnum 2)] []) :=
  duplicate_idempotent_on_success
    (vobject 0 [("a", vnum 1)] [("b", vnum 2)]) 2
    (vobject 2 [("a", vnum 1), ("b", vnum 2)] []) 3 (by rfl) (by rfl)
    (by
      rw [duplicate_vobject]
      simp [duplicateObject, forInItems, firstPerKey, dupPairs,
        duplicate_vnum])

/-- C7: the raw byte-buffer strategy is `new ArrayBuffer(arrBuff.length)`,
but an ArrayBuffer carries `byteLength`, not `length`, so the constructor
receives `undefined` and the copy of an 8-byte buffer is a zero-length
buffer — the copy's byte length does not equal the source's, confirming
the defect the specification flags. -/
theorem duplicate_arrayBuffer_length_bug :
    duplicate (varrayBuffer 0 8) 1 = .ok (varrayBuffer 1 0, 2) :=
  duplicate_varrayBuffer 0 8 1

/-- C8: duplicating an error-like value yields a fresh error object
(distinct identity, given a counter above the input's address) with the
same message and the same name, and nothing else: custom enumerable
fields are dropped and the stack is a fresh capture (modelled as the
empty string), regardless of the input's fields. -/
theorem duplicateError_name_message (a : Nat) (nm msg : String)
    (extra : List (String × Value)) (stack : String) (c : Nat)
    (h : a < c) :
    duplicate (verror a nm msg extra stack) c =
      .ok (verror c nm msg [] "", c + 1) ∧
    topAddr (verror c nm msg [] "") ≠
      topAddr (verror a nm msg extra stack) := by
  refine ⟨duplicate_verror a nm msg extra stack c, ?_⟩
  simp only [topAddr, ne_eq, Option.some.injEq]
  omega

/-- Witness for C8 at a concrete error with a custom field and a stack
capture. -/
theorem duplicateError_name_message_witness :
    duplicate (verror 0 "RangeError" "boom" [("custom", vnum 5)] "at f") 1
      = .ok (verror 1 "RangeError" "boom" [] "", 2) :=
  (duplicateError_name_message 0 "RangeError" "boom" [("custom", vnum 5)]
    "at f" 1 (by decide)).1

/-- C9: `duplicate` is referentially transparent: it is a pure function
of its input value and allocation counter (the embedding is a total
function, so the input and everything reachable from it are unchanged by
construction), and two calls on the same input at any two allocation
counters behave the same — they fail with the same error, or both
succeed with deep-equal results. -/
theorem duplicate_referentially_transparent (v : Value) (c₁ c₂ : Nat) :
    (∀ e, duplicate v c₁ = .error e → duplicate v c₂ = .error e) ∧
    (∀ y₁ d₁, duplicate v c₁ = .ok (y₁, d₁) →
      ∃ y₂ d₂, duplicate v c₂ = .ok (y₂, d₂) ∧ deepEqual y₂ y₁) :=
  dup_counter_indep v c₁ c₂

/-- Witness for C9: the two runs of the same duplication at counters 5
and 9 produce deep-equal copies. -/
theorem duplicate_referentially_transparent_witness :
    ∃ y₂ d₂, duplicate (vobject 0 [("a", vnum 1)] []) 9 = .ok (y₂, d₂) ∧
      deepEqual y₂ (vobject 5 [("a", vnum 1)] []) :=
  (duplicate_referentially_transparent (vobject 0 [("a", vnum 1)] []) 5 9).2
    (vobject 5 [("a", vnum 1)] []) 6
    (by
      rw [duplicate_vobject]
      simp [duplicateObject, forInItems, firstPerKey, dupPairs,
        duplicate_vnum])

/-- C1 (amended): duplicating a plain object (when the recursion
succeeds) yields a new container holding, for every key of the source's
for-in enumeration (own enumerable keys first, then inherited enumerable
keys not shadowed), the recursively duplicated value of the source under
the same key, in the source's enumeration order; the result is deep-equal
to the source provided every enumerated value duplicates deep-equally
(which can fail, e.g. for a nested raw byte buffer); and, for a counter
above the source's addresses, every nested plain object of the result is
a distinct identity from the corresponding nested object of the
source. -/
theorem duplicateObject_correct (a : Nat)
    (own proto : List (String × Value)) (c : Nat) (y : Value) (c' : Nat)
    (h : duplicate (vobject a own proto) c = .ok (y, c')) :
    ∃ ps : List (String × Value),
      y = vobject c ps [] ∧
      ps.map Prod.fst = (forInItems own proto).map Prod.fst ∧
      (∀ (i : Nat) (p p' : String × Value),
        (forInItems own proto)[i]? = some p → ps[i]? = some p' →
        p'.1 = p.1 ∧ Dup p.2 p'.2) ∧
      ((∀ p ∈ forInItems own proto, NormPres p.2) →
        deepEqual y (vobject a own proto)) ∧
      ((∀ p ∈ forInItems own proto, ∀ av : Nat,
          topAddr p.2 = some av → av < c) →
        ∀ (i : Nat) (p p' : String × Value),
          (forInItems own proto)[i]? = some p → ps[i]? = some p' →
          isObjectV p.2 = true → topAddr p'.2 ≠ topAddr p.2) := by
  rw [duplicate_vobject] at h
  simp only [duplicateObject] at h
  cases hdp : dupPairs (forInItems own proto) (c + 1) with
  | error e => rw [hdp] at h; simp at h
  | ok pr =>
    obtain ⟨ps, c2⟩ := pr
    rw [hdp] at h
    simp at h
    obtain ⟨h1, -⟩ := h
    subst h1
    obtain ⟨hlen, hfst, hpt⟩ := dupPairs_getq hdp
    refine ⟨ps, rfl, hfst, ?_, ?_, ?_⟩
    · intro i p p' hp hp'
      obtain ⟨hf, ci, ci', -, hdup, -⟩ := hpt i p p' hp hp'
      exact ⟨hf, ci, ci', hdup⟩
    · intro hpres
      have hnd : ((forInItems own proto).map Prod.fst).Nodup := by
        simp only [forInItems]
        exact firstPerKey_keys_nodup [] (own ++ proto)
      have hnd' : (ps.map Prod.fst).Nodup := by
        rw [hfst]; exact hnd
      have hnp : normPairs ps = normPairs (forInItems own proto) := by
        refine normPairs_congr hlen hfst ?_
        intro i p p' hp hp'
        obtain ⟨-, ci, ci', -, hdup, -⟩ := hpt i p p' hp hp'
        exact hpres p (List.getElem?_mem hp) ci p'.2 ci' hdup
      have hnp' : normPairs ps = normPairs (firstPerKey [] (own ++ proto)) := by
        simpa [forInItems] using hnp
      show normalize (vobject c ps []) = normalize (vobject a own proto)
      simp only [normalize, forInItems, List.append_nil]
      rw [firstPerKey_eq_self hnd' (by simp), hnp']
    · intro hfresh i p p' hp hp' hobj
      obtain ⟨-, ci, ci', hci, hdup, -⟩ := hpt i p p' hp hp'
      have htop' := dup_of_object_shape hobj hdup
      obtain ⟨av, hav⟩ := topAddr_of_object hobj
      have hlt := hfresh p (List.getElem?_mem hp) av hav
      rw [htop', hav]
      simp only [ne_eq, Option.some.injEq]
      omega

/-- Counterexample to the deep-equality conjunct of C1 as stated: the
plain object holding an 8-byte raw buffer under key `b` duplicates
successfully, but the copy holds a zero-length buffer, so the result is
not deep-equal to the source. -/
theorem duplicateObject_deepEqual_fails :
    duplicate (vobject 0 [("b", varrayBuffer 1 8)] []) 2 =
      .ok (vobject 2 [("b", varrayBuffer 3 0)] [], 4) ∧
    ¬ deepEqual (vobject 2 [("b", varrayBuffer 3 0)] [])
      (vobject 0 [("b", varrayBuffer 1 8)] []) := by
  constructor
  · rw [duplicate_vobject]
    simp [duplicateObject, forInItems, firstPerKey, dupPairs,
      duplicate_varrayBuffer]
  · simp [deepEqual, normalize, forInItems, firstPerKey, normPairs]

/-- Witness for C1 (amended) at the specification's example
`(a: 1, b: (c: 2))`: the copy is deep-equal to the input. -/
theorem duplicateObject_correct_witness :
    deepEqual
      (vobject 2 [("a", vnum 1), ("b", vobject 3 [("c", vnum 2)] [])] [])
      (vobject 0 [("a", vnum 1), ("b", vobject 1 [("c", vnum 2)] [])] [])
    := by
  obtain ⟨ps, hy, -, -, hde, -⟩ :=
    duplicateObject_correct 0
      [("a", vnum 1), ("b", vobject 1 [("c", vnum 2)] [])] [] 2
      (vobject 2 [("a", vnum 1), ("b", vobject 3 [("c", vnum 2)] [])] [])
      4
      (by
        rw [duplicate_vobject]
        simp [duplicateObject, forInItems, firstPerKey, dupPairs,
          duplicate_vnum, duplicate_vobject])
  refine hde ?_
  intro p hp
  simp [forInItems, firstPerKey] at hp
  rcases hp with rfl | rfl
  · exact normPres_of_canon (by simp [canonV])
  · exact normPres_of_canon (by simp [canonV, canonPairs])

/-- C2 (amended): duplicating an array (when the recursion succeeds)
yields a new array that reproduces every enumerated index (holes skipped,
hence preserved below the last present index) and every extra own
enumerable key with the recursively duplicated value under the same
index/key; the result is deep-equal to the source provided the source has
no trailing holes (which for-in assignment cannot reproduce) and every
enumerated value duplicates deep-equally; and, for a counter above the
source's addresses, every nested array of the result is a distinct
identity from the corresponding nested array of the source. -/
theorem duplicateArray_correct (a : Nat) (cells : List (Option Value))
    (extra : List (String × Value)) (c : Nat) (y : Value) (c' : Nat)
    (h : duplicate (varray a cells extra) c = .ok (y, c')) :
    ∃ (cells' : List (Option Value)) (extra' : List (String × Value)),
      y = varray c (trimTrailing cells') extra' ∧
      cells'.length = cells.length ∧
      (∀ i : Nat, cells[i]? = some none ↔ cells'[i]? = some none) ∧
      (∀ (i : Nat) (v : Value), cells[i]? = some (some v) →
        ∃ w, cells'[i]? = some (some w) ∧
          (trimTrailing cells')[i]? = some (some w) ∧ Dup v w) ∧
      extra'.map Prod.fst = (firstPerKey [] extra).map Prod.fst ∧
      (∀ (i : Nat) (p p' : String × Value),
        (firstPerKey [] extra)[i]? = some p → extra'[i]? = some p' →
        p'.1 = p.1 ∧ Dup p.2 p'.2) ∧
      (noTrailingHole cells = true →
        (∀ v : Value, some v ∈ cells → NormPres v) →
        (∀ p ∈ firstPerKey [] extra, NormPres p.2) →
        deepEqual y (varray a cells extra)) ∧
      ((∀ (v : Value) (av : Nat), some v ∈ cells →
          topAddr v = some av → av < c) →
        ∀ (i : Nat) (v w : Value), cells[i]? = some (some v) →
          cells'[i]? = some (some w) → isArrayV v = true →
          topAddr w ≠ topAddr v) := by
  rw [duplicate_varray] at h
  simp only [duplicateArray] at h
  cases hdc : dupCells cells (c + 1) with
  | error e => rw [hdc] at h; simp at h
  | ok pr =>
    obtain ⟨cells', c2⟩ := pr
    rw [hdc] at h
    simp only at h
    cases hdp : dupPairs (firstPerKey [] extra) c2 with
    | error e => rw [hdp] at h; simp at h
    | ok pr2 =>
      obtain ⟨extra', c3⟩ := pr2
      rw [hdp] at h
      simp at h
      obtain ⟨h1, -⟩ := h
      subst h1
      obtain ⟨hclen, hnone, hcpt⟩ := dupCells_getq hdc
      obtain ⟨hplen, hpfst, hppt⟩ := dupPairs_getq hdp
      refine ⟨cells', extra', rfl, hclen, hnone, ?_, hpfst, ?_, ?_, ?_⟩
      · intro i v hp
        have hi : i < cells.length := (List.getElem?_eq_some.mp hp).1
        have hi' : i < cells'.length := by rw [hclen]; exact hi
        obtain ⟨x, hx⟩ : ∃ x, cells'[i]? = some x :=
          ⟨cells'[i], List.getElem?_eq_getElem hi'⟩
        cases x with
        | none =>
          exfalso
          have hcontra := (hnone i).mpr hx
          rw [hp] at hcontra
          simp at hcontra
        | some w =>
          obtain ⟨ci, ci', -, hdup, -⟩ := hcpt i v w hp hx
          exact ⟨w, hx, trimTrailing_get? hx, ci, ci', hdup⟩
      · intro i p p' hp hp'
        obtain ⟨hf, ci, ci', -, hdup, -⟩ := hppt i p p' hp hp'
        exact ⟨hf, ci, ci', hdup⟩
      · intro hnth hcellpres hextrapres
        have hnth' : noTrailingHole cells' = true := by
          rw [noTrailingHole_congr hclen hnone]
          exact hnth
        have htrim : trimTrailing cells' = cells' :=
          trimTrailing_eq_self hnth'
        have hnc : normCells cells' = normCells cells := by
          refine normCells_congr hclen hnone ?_
          intro i v w hp hp'
          obtain ⟨ci, ci', -, hdup, -⟩ := hcpt i v w hp hp'
          exact hcellpres v (List.getElem?_mem hp) ci w ci' hdup
        have hnd : ((firstPerKey [] extra).map Prod.fst).Nodup :=
          firstPerKey_keys_nodup [] extra
        have hnd' : (extra'.map Prod.fst).Nodup := by
          rw [hpfst]; exact hnd
        have hnp : normPairs extra' = normPairs (firstPerKey [] extra) := by
          refine normPairs_congr hplen hpfst ?_
          intro i p p' hp hp'
          obtain ⟨-, ci, ci', -, hdup, -⟩ := hppt i p p' hp hp'
          exact hextrapres p (List.getElem?_mem hp) ci p'.2 ci' hdup
        show normalize (varray c (trimTrailing cells') extra') =
          normalize (varray a cells extra)
        rw [htrim]
        simp only [normalize]
        rw [firstPerKey_eq_self hnd' (by simp), hnp, hnc]
      · intro hfresh i v w hp hp' harr
        obtain ⟨ci, ci', hci, hdup, -⟩ := hcpt i v w hp hp'
        have htop' := dup_of_array_shape harr hdup
        obtain ⟨av, hav⟩ := topAddr_of_array harr
        have hlt := hfresh v av (List.getElem?_mem hp) hav
        rw [htop', hav]
        simp only [ne_eq, Option.some.injEq]
        omega

/-- Counterexample to the deep-equality conjunct of C2 as stated: an
array whose only entry is a trailing hole duplicates to the empty array
(for-in skips the hole, so nothing is assigned and the copy's length is
0, not 1), which is not deep-equal to the source. -/
theorem duplicateArray_deepEqual_fails :
    duplicate (varray 0 [none] []) 1 = .ok (varray 1 [] [], 2) ∧
    ¬ deepEqual (varray 1 [] []) (varray 0 [none] []) := by
  constructor
  · rw [duplicate_varray]
    simp [duplicateArray, dupCells, dupPairs, firstPerKey, trimTrailing]
  · simp [deepEqual, normalize, normCells, firstPerKey, normPairs]

/-- Witness for C2 (amended) at the specification's example `[1, [2, 3]]`:
the copy is deep-equal to the input. -/
theorem duplicateArray_correct_witness :
    deepEqual
      (varray 2 [some (vnum 1),
        some (varray 3 [some (vnum 2), some (vnum 3)] [])] [])
      (varray 0 [some (vnum 1),
        some (varray 1 [some (vnum 2), some (vnum 3)] [])] []) := by
  obtain ⟨cells', extra', hy, -, -, -, -, -, hde, -⟩ :=
    duplicateArray_correct 0
      [some (vnum 1), some (varray 1 [some (vnum 2), some (vnum 3)] [])]
      [] 2
      (varray 2 [some (vnum 1),
        some (varray 3 [some (vnum 2), some (vnum 3)] [])] []) 4
      (by
        rw [duplicate_varray]
        simp [duplicateArray, dupCells, dupPairs, firstPerKey,
          trimTrailing, duplicate_vnum, duplicate_varray])
  refine hde (by rfl) ?_ ?_
  · intro v hv
    simp at hv
    rcases hv with rfl | rfl
    · exact normPres_of_canon (by simp [canonV])
    · exact normPres_of_canon
        (by simp [canonV, canonCells, canonPairs, noTrailingHole])
  · intro p hp
    simp [firstPerKey] at hp

/-- C10: the copy of a plain object is a fresh object whose prototype is
the default plain-object prototype (it carries no prototype bindings of
its own), and every copied binding — including keys that were inherited
in the source — becomes an own property of the copy, in enumeration
order. -/
theorem duplicateObject_own_props (a : Nat)
    (own proto : List (String × Value)) (c : Nat) (y : Value) (c' : Nat)
    (h : duplicate (vobject a own proto) c = .ok (y, c')) :
    ∃ ps : List (String × Value), y = vobject c ps [] ∧
      ps.map Prod.fst = (forInItems own proto).map Prod.fst := by
  rw [duplicate_vobject] at h
  simp only [duplicateObject] at h
  cases hdp : dupPairs (forInItems own proto) (c + 1) with
  | error e => rw [hdp] at h; simp at h
  | ok pr =>
    obtain ⟨ps, c2⟩ := pr
    rw [hdp] at h
    simp at h
    obtain ⟨h1, -⟩ := h
    subst h1
    exact ⟨ps, rfl, (dupPairs_getq hdp).2.1⟩

/-- Witness for C10 at a source object with an inherited binding `b`: the
copy owns both `a` and `b` and has no prototype bindings. -/
theorem duplicateObject_own_props_witness :
    ∃ ps : List (String × Value),
      (vobject 1 [("a", vnum 1), ("b", vnum 2)] [] : Value) =
        vobject 1 ps [] ∧
      ps.map Prod.fst =
        (forInItems [("a", vnum 1)] [("b", vnum 2)]).map Prod.fst :=
  duplicateObject_own_props 0 [("a", vnum 1)] [("b", vnum 2)] 1
    (vobject 1 [("a", vnum 1), ("b", vnum 2)] []) 2
    (by
      rw [duplicate_vobject]
      simp [duplicateObject, forInItems, firstPerKey, dupPairs,
        duplicate_vnum])

end Facsimile
